import Mathlib

/-!
# Texture sampling and mip-pyramid generation (`src/texture.cpp`)

A shallow embedding of `CGL::Texture` and the properties its specification states.

Conventions of the embedding.

* `float` and `double` values are rationals. Rounding to binary64 and to binary32, to
  nearest with ties to even, is `toDouble` and `toFloat`. The only non-finite value that the
  code meets on finite inputs, the `-inf` of `log2(0)`, is `none` in the result of
  `Runtime.log2`.
* The samplers are embedded twice. `sample_nearest`, `sample_bilinear`, `sample_trilinear`
  and `sample` take the floating operations on the coordinates as exact; they serve the
  claims at whose inputs nothing is rounded. `sample_nearest_ieee`, `sample_bilinear_ieee`,
  `sample_trilinear_ieee` and `sample_ieee` round every such operation; they serve the
  claims that rounding decides. `get_level` rounds the sum of line 36.
* The mip generator is embedded in exact arithmetic, which is how the claims about its
  weights and means are stated.
* `sqrt`, `log2` and `std::vector::max_size()` are not code of this repository; they are the
  fields of a `Runtime` that every function using them takes as its first argument.
* `(int)floorf(x)` is `⌊x⌋`; the conversion of a `float` to `int` is `truncToInt`. Integers
  are not bounded, and an integer converts to `double` without rounding.
* An access `mipmap[i]` outside the vector is undefined behaviour; the functions that make
  one return `none`. A read outside a texel buffer is undefined as well; `uint8_to_float`
  has the value 0 there, and `readOffsets` lists the offsets read, so that a theorem can
  say that the reads are inside the buffer.
* Texel buffers are lists of bytes held as natural numbers.
-/

namespace CGL

/-! ## Data model -/

/-- A colour: three channels. -/
structure Color where
  r : ℚ
  g : ℚ
  b : ℚ
  deriving DecidableEq, Repr

/-- A point of texture space. -/
structure Vector2D where
  x : ℚ
  y : ℚ
  deriving DecidableEq, Repr

/-- One image of the pyramid: `width`, `height`, and `texels`, the packed RGB bytes. -/
structure MipLevel where
  width : ℕ
  height : ℕ
  texels : List ℕ
  deriving DecidableEq, Repr

/-- Pixel sampling method; `P_OTHER` stands for every value of the enumeration that is
neither `P_NEAREST` nor `P_LINEAR`. -/
inductive PixelSampleMethod where
  | P_NEAREST
  | P_LINEAR
  | P_OTHER
  deriving DecidableEq, Repr

/-- Level sampling method. -/
inductive LevelSampleMethod where
  | L_ZERO
  | L_NEAREST
  | L_LINEAR
  deriving DecidableEq, Repr

/-- The parameters of one query. -/
structure SampleParams where
  p_uv : Vector2D
  p_dx_uv : Vector2D
  p_dy_uv : Vector2D
  psm : PixelSampleMethod
  lsm : LevelSampleMethod
  deriving DecidableEq, Repr

/-- A texture: the base `width` and `height` and the level store `mipmap`. -/
structure Texture where
  width : ℕ
  height : ℕ
  mipmap : List MipLevel
  deriving DecidableEq, Repr

/-- What `texture.cpp` takes from outside the repository: the library functions `sqrt` and
`log2` (`none` is `-inf`) and the constant `std::vector<MipLevel>::max_size()`. -/
structure Runtime where
  sqrt : ℚ → ℚ
  log2 : ℚ → Option ℚ
  max_size : ℕ

/-! ## Helpers -/

/-- Modelled from the spec: `clamp` is called by `texture.cpp` and defined outside it; it
saturates `x` to the range from `lo` to `hi`. -/
def clamp {α : Type} [LinearOrder α] (x lo hi : α) : α :=
  min (max x lo) hi

/-- The value of `clamp(level, lo, hi)` on a float that may be `-inf`. -/
def clampFloat (level : Option ℚ) (lo hi : ℚ) : ℚ :=
  match level with
  | none => min lo hi
  | some q => clamp q lo hi

/-- Conversion of a float to `int`: truncation towards zero. -/
def truncToInt (q : ℚ) : ℤ :=
  if 0 ≤ q then ⌊q⌋ else ⌈q⌉

/-- Rounding of a rational to the nearest integer, a tie going to the even one. -/
def roundHalfEven (q : ℚ) : ℤ :=
  let f : ℤ := ⌊q⌋
  if q - (f : ℚ) < 1 / 2 then f
  else if 1 / 2 < q - (f : ℚ) then f + 1
  else if f % 2 = 0 then f else f + 1

/-- Rounding of a rational to the nearest value of the binary format with `prec` significant
bits and least normal exponent `emin`, a tie going to the even significand. The upper end
of the exponent range is not modelled: no value in the claims comes near it. -/
def roundToFormat (prec : ℕ) (emin : ℤ) (q : ℚ) : ℚ :=
  if q = 0 then 0
  else
    let e : ℤ := max (Int.log 2 |q|) emin
    let ulp : ℚ := (2 : ℚ) ^ (e - (prec : ℤ) + 1)
    (roundHalfEven (q / ulp) : ℚ) * ulp

/-- Rounding to binary32, the format of `float`. -/
def toFloat (q : ℚ) : ℚ :=
  roundToFormat 24 (-126) q

/-- The element `mipmap[i]`, or `none` when `i` is outside the vector. -/
def levelAt (mipmap : List MipLevel) (i : ℤ) : Option MipLevel :=
  if 0 ≤ i then mipmap[i.toNat]? else none

/-- Modelled from the spec: `MipLevel::get_texel` is declared in the header, which is not
among the sources. Texel access clamps the coordinates to the level and returns the stored
bytes divided by 255. -/
def MipLevel.get_texel (l : MipLevel) (tx ty : ℤ) : Color :=
  let x := clamp tx 0 ((l.width : ℤ) - 1)
  let y := clamp ty 0 ((l.height : ℤ) - 1)
  let k := (3 * (y * (l.width : ℤ) + x)).toNat
  { r := (l.texels.getD k 0 : ℚ) / 255
    g := (l.texels.getD (k + 1) 0 : ℚ) / 255
    b := (l.texels.getD (k + 2) 0 : ℚ) / 255 }

/-! ## Sampling -/

/-- `Texture::lerp`, lines 135-142. -/
def lerp (val : ℚ) (start end_ : Color) : Color :=
  let r := start.r + val * (end_.r - end_.r)
  let g := start.g + val * (end_.g - end_.g)
  let b := start.b + val * (end_.b - end_.b)
  { r := r, g := g, b := b }

/-- The clamped level of `Texture::get_level`, lines 25-30: the variable `clampedlevel`. -/
def clampedlevel (rt : Runtime) (t : Texture) (sp : SampleParams) : ℚ :=
  let dx : Vector2D :=
    { x := (t.width : ℚ) * (sp.p_dx_uv.x - sp.p_uv.x)
      y := (t.width : ℚ) * (sp.p_dx_uv.y - sp.p_uv.y) }
  let dy : Vector2D :=
    { x := (t.height : ℚ) * (sp.p_dy_uv.x - sp.p_uv.x)
      y := (t.height : ℚ) * (sp.p_dy_uv.y - sp.p_uv.y) }
  let level := rt.log2 (max (rt.sqrt (dx.x ^ 2 + dx.y ^ 2)) (rt.sqrt (dy.x ^ 2 + dy.y ^ 2)))
  clampFloat level 0 (rt.max_size : ℚ)

/-- `Texture::get_level`, lines 20-42. The sum `clampedlevel+1` of line 36 is a `float`
addition and is rounded to binary32; the difference `clampedlevel - rounded` of a binary32
value and its floor is a binary32 value, so that subtraction is exact. -/
def get_level (rt : Runtime) (t : Texture) (sp : SampleParams) : ℚ :=
  if sp.lsm = LevelSampleMethod.L_ZERO then
    0
  else
    let clamped := clampedlevel rt t sp
    if sp.lsm = LevelSampleMethod.L_NEAREST then
      let rounded : ℤ := ⌊clamped⌋
      if clamped - (rounded : ℚ) < 1 / 2 then clamped else toFloat (clamped + 1)
    else
      clamped

/-- The texel coordinates that `Texture::sample_nearest` passes to texel access on the level
`l`, lines 52-59, the floating operations taken as exact; `nearest_texel_ieee` rounds
them. -/
def nearest_texel (l : MipLevel) (uv : Vector2D) : ℤ × ℤ :=
  let u00x : ℤ := clamp ⌊(((l.width : ℤ) - 1 : ℤ) : ℚ) * uv.x⌋ 0 ((l.width : ℤ) - 1)
  let u00y : ℤ := clamp ⌊(((l.height : ℤ) - 1 : ℤ) : ℚ) * uv.y⌋ 0 ((l.height : ℤ) - 1)
  let offsetS : ℚ := (((l.width : ℤ) - 1 : ℤ) : ℚ) * uv.x - (u00x : ℚ)
  let offsetT : ℚ := (((l.height : ℤ) - 1 : ℤ) : ℚ) * uv.y - (u00y : ℚ)
  let texelX := if offsetS < 1 / 2 then u00x else u00x + 1
  let texelY := if offsetT < 1 / 2 then u00y else u00y + 1
  (texelX, texelY)

/-- `Texture::sample_nearest`, lines 45-64. -/
def sample_nearest (mipmap : List MipLevel) (uv : Vector2D) (level : ℚ) : Option Color :=
  let intlevel : ℤ := ⌊level⌋
  match levelAt mipmap intlevel with
  | none => none
  | some l => some (l.get_texel (nearest_texel l uv).1 (nearest_texel l uv).2)

/-- The base texel of `Texture::sample_bilinear` on one axis, lines 79-96: the floor of the
scaled coordinate, raised to 0 and lowered to the extent, the product taken as exact;
`bilinear_base_ieee` rounds it. -/
def bilinear_base (extent : ℤ) (c : ℚ) : ℤ :=
  let u00 : ℤ := ⌊(extent : ℚ) * c⌋
  let u00 := if u00 < 0 then 0 else u00
  if u00 > extent then extent else u00

/-- The four colours that `Texture::sample_bilinear` fetches on the level `l`, lines 104-114,
in the order `u00`, `u01`, `u10`, `u11`. -/
def bilinear_texels (l : MipLevel) (uv : Vector2D) : Color × Color × Color × Color :=
  let currentMapWidth : ℤ := l.width
  let currentMapHeight : ℤ := l.height
  let u00x := bilinear_base currentMapWidth uv.x
  let u00y := bilinear_base currentMapHeight uv.y
  let u00 := l.get_texel u00x u00y
  let yclamp01 := clamp (u00y + 1) 0 (currentMapHeight - 1)
  let u01 := l.get_texel u00x yclamp01
  let xclamp10 := clamp (u00x + 1) 0 (currentMapWidth - 1)
  let u10 := l.get_texel xclamp10 u00y
  let xclamp11 := clamp (u00x + 1) 0 (currentMapWidth - 1)
  let yclamp11 := clamp (u00y + 1) 0 (currentMapHeight - 1)
  let u11 := l.get_texel xclamp11 yclamp11
  (u00, u01, u10, u11)

/-- `Texture::sample_bilinear`, lines 67-119. -/
def sample_bilinear (mipmap : List MipLevel) (uv : Vector2D) (level : ℚ) : Option Color :=
  let intlevel : ℤ := ⌊level⌋
  match levelAt mipmap intlevel with
  | none => none
  | some l =>
    let currentMapWidth : ℤ := l.width
    let currentMapHeight : ℤ := l.height
    let u00x := bilinear_base currentMapWidth uv.x
    let u00y := bilinear_base currentMapHeight uv.y
    let offsetS : ℚ := (currentMapWidth : ℚ) * uv.x - (u00x : ℚ)
    let offsetT : ℚ := (currentMapHeight : ℚ) * uv.y - (u00y : ℚ)
    let q := bilinear_texels l uv
    some (lerp offsetT (lerp offsetS q.1 q.2.1) (lerp offsetS q.2.2.1 q.2.2.2))

/-- `Texture::sample_trilinear`, lines 121-133. -/
def sample_trilinear (mipmap : List MipLevel) (uv : Vector2D) (level : ℚ) : Option Color :=
  let intlevel : ℤ := ⌊level⌋
  let mipmapOffset : ℤ := truncToInt (level - (intlevel : ℚ))
  match sample_bilinear mipmap uv (intlevel : ℚ) with
  | none => none
  | some interpol1 =>
    if (mipmapOffset : ℚ) < 5 / 1000 then
      some interpol1
    else
      match sample_bilinear mipmap uv ((intlevel + 1 : ℤ) : ℚ) with
      | none => none
      | some interpol2 => some (lerp (mipmapOffset : ℚ) interpol1 interpol2)

/-- `Texture::sample`, lines 9-18. -/
def sample (rt : Runtime) (t : Texture) (sp : SampleParams) : Option Color :=
  match sp.psm with
  | PixelSampleMethod.P_NEAREST => sample_nearest t.mipmap sp.p_uv (get_level rt t sp)
  | PixelSampleMethod.P_LINEAR => sample_trilinear t.mipmap sp.p_uv (get_level rt t sp)
  | PixelSampleMethod.P_OTHER => some { r := 1, g := 0, b := 0 }

/-! ## Sampling with the rounding of the floating operations

`texture.cpp` multiplies an extent by a `double` coordinate, converts the product to `float`
for `floorf`, and stores the fractional offsets as `float`. The definitions above take those
operations as exact; the ones below round every one of them, `toDouble` for an operation on
`double` and `toFloat` for a conversion to `float`. Extents and texel indices are integers
and convert to `double` without rounding. `lerp` is the same in both: on finite channels the
binary32 value of `start + val * (end - end)` is `start`. -/

/-- `uint8_to_float`, lines 150-155: the three bytes at offset `src`, each divided by 255.
Where the source reads past the end of the buffer, which is undefined, the byte is 0 here;
`readOffsets` lists the offsets that a downsampling step reads. -/
def uint8_to_float (mem : List ℕ) (src : ℕ) : ℚ × ℚ × ℚ :=
  ((mem.getD src 0 : ℚ) / 255, (mem.getD (src + 1) 0 : ℚ) / 255,
    (mem.getD (src + 2) 0 : ℚ) / 255)

/-- One channel of `float_to_uint8`: `(uint8_t)(255.f * max(0.0f, min(1.0f, x)))`. -/
def channel_to_uint8 (x : ℚ) : ℕ :=
  (truncToInt (255 * max 0 (min 1 x))).toNat % 256

/-- `float_to_uint8`, lines 157-162: the three channels stored at offset `dst`. -/
def float_to_uint8 (mem : List ℕ) (dst : ℕ) (src : ℚ × ℚ × ℚ) : List ℕ :=
  ((mem.set dst (channel_to_uint8 src.1)).set (dst + 1) (channel_to_uint8 src.2.1)).set
    (dst + 2) (channel_to_uint8 src.2.2)

/-- The entry `k` of the weight array of one axis for the output index `i`, as lines 247-249
and 269-271 fill it. -/
def axisWeight (norm decimal : ℚ) (i : ℕ) (k : ℕ) : ℚ :=
  match k with
  | 0 => norm * (1 - decimal * (i : ℚ))
  | 1 => norm * 1
  | _ => norm * decimal * ((i : ℚ) + 1)

/-- The statement `result[c] += weight * input[c]` for the three channels. -/
def accumulate (result : ℚ × ℚ × ℚ) (weight : ℚ) (input : ℚ × ℚ × ℚ) : ℚ × ℚ × ℚ :=
  (result.1 + weight * input.1, result.2.1 + weight * input.2.1,
    result.2.2 + weight * input.2.2)

/-- The support of the filter on an axis, lines 222-237: 3 for an odd previous extent, 2 for
an even one. -/
def axisSupport (prevExtent : ℕ) : ℕ :=
  if prevExtent % 2 = 1 then 3 else 2

/-- The decimal term of the filter on an axis, lines 222-237. -/
def axisDecimal (prevExtent currExtent : ℕ) : ℚ :=
  if prevExtent % 2 = 1 then 1 / (currExtent : ℚ) else 0

/-- The body of the loop that creates one mip, lines 201-318: the level `currLevel` with its
texel buffer overwritten by the filtered texels of `prevLevel`. -/
def downsample (prevLevel currLevel : MipLevel) : MipLevel :=
  let prevLevelPitch := prevLevel.width * 3
  let currLevelPitch := currLevel.width * 3
  let prevLevelMem := prevLevel.texels
  let wSupport := axisSupport prevLevel.width
  let wDecimal := axisDecimal prevLevel.width currLevel.width
  let hSupport := axisSupport prevLevel.height
  let hDecimal := axisDecimal prevLevel.height currLevel.height
  let wNorm : ℚ := 1 / (2 + wDecimal)
  let hNorm : ℚ := 1 / (2 + hDecimal)
  if currLevel.height = prevLevel.height then
    { currLevel with
      texels := (List.range currLevel.width).foldl (fun currLevelMem i =>
        let result := (List.range wSupport).foldl (fun result ii =>
          accumulate result (axisWeight wNorm wDecimal i ii)
            (uint8_to_float prevLevelMem (3 * (2 * i + ii)))) (0, 0, 0)
        float_to_uint8 currLevelMem (3 * i) result) currLevel.texels }
  else if currLevel.width = prevLevel.width then
    { currLevel with
      texels := (List.range currLevel.height).foldl (fun currLevelMem j =>
        let result := (List.range hSupport).foldl (fun result jj =>
          accumulate result (axisWeight hNorm hDecimal j jj)
            (uint8_to_float prevLevelMem (prevLevelPitch * (2 * j + jj)))) (0, 0, 0)
        float_to_uint8 currLevelMem (currLevelPitch * j) result) currLevel.texels }
  else
    { currLevel with
      texels := (List.range currLevel.height).foldl (fun currLevelMem j =>
        (List.range currLevel.width).foldl (fun currLevelMem i =>
          let result := (List.range hSupport).foldl (fun result jj =>
            (List.range wSupport).foldl (fun result ii =>
              accumulate result (axisWeight hNorm hDecimal j jj * axisWeight wNorm wDecimal i ii)
                (uint8_to_float prevLevelMem
                  (prevLevelPitch * (2 * j + jj) + 3 * (2 * i + ii)))) result) (0, 0, 0)
          float_to_uint8 currLevelMem (currLevelPitch * j + 3 * i) result) currLevelMem)
        currLevel.texels }

/-- `std::vector::resize`: the first `n` elements, followed by value-initialised levels when
the vector was shorter. -/
def resize (mipmap : List MipLevel) (n : ℕ) : List MipLevel :=
  mipmap.take n ++ List.replicate (n - mipmap.length) ⟨0, 0, []⟩

/-- The loop that allocates the sublevels, lines 181-194, from its iteration `i` on, with
`remaining` iterations to go; `width` and `height` are the running extents. -/
def allocateLevels (startLevel : ℕ) (mipmap : List MipLevel) (width height i : ℕ) :
    (remaining : ℕ) → List MipLevel
  | 0 => mipmap
  | k + 1 =>
    let width := max 1 (width / 2)
    let height := max 1 (height / 2)
    allocateLevels startLevel
      (mipmap.set (startLevel + i) ⟨width, height, List.replicate (3 * width * height) 0⟩)
      width height (i + 1) k

/-- The loop that creates the mips, lines 198-319, from the level `mipLevel` on, with
`remaining` iterations to go. -/
def createMips (mipmap : List MipLevel) (mipLevel : ℕ) : (remaining : ℕ) → List MipLevel
  | 0 => mipmap
  | k + 1 =>
    match mipmap[mipLevel - 1]?, mipmap[mipLevel]? with
    | some prevLevel, some currLevel =>
      createMips (mipmap.set mipLevel (downsample prevLevel currLevel)) (mipLevel + 1) k
    | _, _ => mipmap

/-- What a call of `generate_mips` leaves: the text written to `std::cerr`, and the level
store, which is `none` when the behaviour of the call is undefined. -/
structure MipsResult where
  cerr : List String
  mipmap : Option (List MipLevel)
  deriving DecidableEq, Repr

/-- `Texture::generate_mips`, lines 164-320. `kMaxMipLevels` is a constant of the header,
which is not among the sources. The behaviour is undefined when `mipmap[startLevel]` is
outside the vector, and when the larger base extent is 0, `(int)log2f(0)` being the
conversion of `-inf`. -/
def generate_mips (kMaxMipLevels : ℕ) (mipmap : List MipLevel) (startLevel : ℤ) :
    MipsResult :=
  let cerr : List String :=
    if startLevel < 0 ∨ (mipmap.length : ℤ) ≤ startLevel then ["Invalid start level"] else []
  match levelAt mipmap startLevel with
  | none => { cerr := cerr, mipmap := none }
  | some base =>
    let baseWidth := base.width
    let baseHeight := base.height
    if max baseWidth baseHeight = 0 then
      { cerr := cerr, mipmap := none }
    else
      let numSubLevels : ℤ := (Nat.log 2 (max baseWidth baseHeight) : ℤ)
      let numSubLevels := min numSubLevels ((kMaxMipLevels : ℤ) - startLevel - 1)
      let resized := resize mipmap (startLevel + numSubLevels + 1).toNat
      let allocated :=
        allocateLevels startLevel.toNat resized baseWidth baseHeight 1 numSubLevels.toNat
      let subLevels : ℤ := numSubLevels - (startLevel + 1)
      { cerr := cerr
        mipmap := some (createMips allocated (startLevel + 1).toNat subLevels.toNat) }

/-- The extents and the buffer length of a level. -/
def levelShape (l : MipLevel) : ℕ × ℕ × ℕ :=
  (l.width, l.height, l.texels.length)

/-! ## The blend the specification describes -/

/-- The interpolation of two colours as the specification states it: `a + f * (b - a)` in
each channel. -/
def specLerp (f : ℚ) (a b : Color) : Color :=
  { r := a.r + f * (b.r - a.r)
    g := a.g + f * (b.g - a.g)
    b := a.b + f * (b.b - a.b) }

/-- The bilinear blend as the specification states it: the four texels around
`(x0, y0) = (⌊w u⌋, ⌊h v⌋)` weighted by the fractional offsets `s` and `t`. -/
def specBilinear (l : MipLevel) (uv : Vector2D) : Color :=
  let x0 : ℤ := ⌊(l.width : ℚ) * uv.x⌋
  let y0 : ℤ := ⌊(l.height : ℚ) * uv.y⌋
  let s : ℚ := (l.width : ℚ) * uv.x - (x0 : ℚ)
  let t : ℚ := (l.height : ℚ) * uv.y - (y0 : ℚ)
  let c00 := l.get_texel x0 y0
  let c10 := l.get_texel (x0 + 1) y0
  let c01 := l.get_texel x0 (y0 + 1)
  let c11 := l.get_texel (x0 + 1) (y0 + 1)
  { r := (1 - s) * (1 - t) * c00.r + s * (1 - t) * c10.r + (1 - s) * t * c01.r + s * t * c11.r
    g := (1 - s) * (1 - t) * c00.g + s * (1 - t) * c10.g + (1 - s) * t * c01.g + s * t * c11.g
    b := (1 - s) * (1 - t) * c00.b + s * (1 - t) * c10.b + (1 - s) * t * c01.b + s * t * c11.b }

end CGL

namespace CGL

/-! ## Concrete stores used at the evaluations -/

/-- A 2x1 level: a black texel, then a white one. -/
def blackWhite : MipLevel := ⟨2, 1, [0, 0, 0, 255, 255, 255]⟩

/-- A two-level store: a 2x1 level (white, then black) and the 1x1 level that averaging its
two texels gives, truncated to a byte. -/
def whiteBlackPyramid : List MipLevel :=
  [⟨2, 1, [255, 255, 255, 0, 0, 0]⟩, ⟨1, 1, [127, 127, 127]⟩]

/-- A 2x2 texture with its two-level store, the texels of both levels being any bytes. -/
def twoLevelTexture (fine coarse : List ℕ) : Texture :=
  { width := 2, height := 2, mipmap := [⟨2, 2, fine⟩, ⟨1, 1, coarse⟩] }

/-- A query at uv = (0, 0) whose neighbour to the right is two texture widths away and whose
neighbour below is at the same uv. -/
def wideFootprint (psm : PixelSampleMethod) (lsm : LevelSampleMethod) : SampleParams :=
  { p_uv := ⟨0, 0⟩, p_dx_uv := ⟨2, 0⟩, p_dy_uv := ⟨0, 0⟩, psm := psm, lsm := lsm }

/-- A runtime for evaluation: `sqrt` and `log2` round down, to a quotient of integer roots
and to an integer; they are exact on squares and on powers of two, and `log2 0` is `-inf`.
`max_size` is the value of `std::vector<MipLevel>::max_size()` for a 40-byte element on a
64-bit target. -/
def dyadicRuntime : Runtime :=
  { sqrt := fun q => (Nat.sqrt q.num.toNat : ℚ) / (Nat.sqrt q.den : ℚ)
    log2 := fun q => if q ≤ 0 then none else some ((Int.log 2 q : ℤ) : ℚ)
    max_size := 230584300921369395 }

/-- A one-level store: a 2x1 level of two white texels. -/
def whitePair : List MipLevel := [⟨2, 1, [255, 255, 255, 255, 255, 255]⟩]

/-- A one-level store: a 5x3 level of zero bytes. -/
def fiveByThree : List MipLevel := [⟨5, 3, List.replicate 45 0⟩]

/-- A store of fifteen 1x1 levels, one more than `kMaxMipLevels = 14`. -/
def fifteenLevels : List MipLevel := List.replicate 15 ⟨1, 1, [0, 0, 0]⟩

/-- The four coordinate pairs that `Texture::sample_bilinear` passes to texel access on the
level `l`, lines 79-114, in the order of `u00`, `u01`, `u10`, `u11`. -/
def bilinear_coords (l : MipLevel) (uv : Vector2D) : (ℤ × ℤ) × (ℤ × ℤ) × (ℤ × ℤ) × (ℤ × ℤ) :=
  let currentMapWidth : ℤ := l.width
  let currentMapHeight : ℤ := l.height
  let u00x := bilinear_base currentMapWidth uv.x
  let u00y := bilinear_base currentMapHeight uv.y
  let yclamp01 := clamp (u00y + 1) 0 (currentMapHeight - 1)
  let xclamp10 := clamp (u00x + 1) 0 (currentMapWidth - 1)
  let xclamp11 := clamp (u00x + 1) 0 (currentMapWidth - 1)
  let yclamp11 := clamp (u00y + 1) 0 (currentMapHeight - 1)
  ((u00x, u00y), (u00x, yclamp01), (xclamp10, u00y), (xclamp11, yclamp11))

/-- A 2x2 level: black, white on the first row and white, black on the second. -/
def checker : MipLevel := ⟨2, 2, [0, 0, 0, 255, 255, 255, 255, 255, 255, 0, 0, 0]⟩

/-- The byte offsets that `uint8_to_float` reads at the address `src`, lines 152-154. -/
def uint8_to_float_offsets (src : ℕ) : List ℕ :=
  [src, src + 1, src + 2]

/-- The byte offsets that `float_to_uint8` writes at the address `dst`, lines 159-161. -/
def float_to_uint8_offsets (dst : ℕ) : List ℕ :=
  [dst, dst + 1, dst + 2]

/-- The byte offsets that a downsampling step reads in the previous level: the addresses of
lines 254, 275 and 306-308, over the loops around them. -/
def readOffsets (prevLevel currLevel : MipLevel) : List ℕ :=
  let prevLevelPitch := prevLevel.width * 3
  let wSupport := axisSupport prevLevel.width
  let hSupport := axisSupport prevLevel.height
  if currLevel.height = prevLevel.height then
    (List.range currLevel.width).flatMap fun i =>
      (List.range wSupport).flatMap fun ii =>
        uint8_to_float_offsets (3 * (2 * i + ii))
  else if currLevel.width = prevLevel.width then
    (List.range currLevel.height).flatMap fun j =>
      (List.range hSupport).flatMap fun jj =>
        uint8_to_float_offsets (prevLevelPitch * (2 * j + jj))
  else
    (List.range currLevel.height).flatMap fun j =>
      (List.range currLevel.width).flatMap fun i =>
        (List.range hSupport).flatMap fun jj =>
          (List.range wSupport).flatMap fun ii =>
            uint8_to_float_offsets (prevLevelPitch * (2 * j + jj) + 3 * (2 * i + ii))

/-- The byte offsets that a downsampling step writes in the new level: the addresses of
lines 261, 282 and 315, over the loops around them. -/
def writeOffsets (prevLevel currLevel : MipLevel) : List ℕ :=
  let currLevelPitch := currLevel.width * 3
  if currLevel.height = prevLevel.height then
    (List.range currLevel.width).flatMap fun i =>
      float_to_uint8_offsets (3 * i)
  else if currLevel.width = prevLevel.width then
    (List.range currLevel.height).flatMap fun j =>
      float_to_uint8_offsets (currLevelPitch * j)
  else
    (List.range currLevel.height).flatMap fun j =>
      (List.range currLevel.width).flatMap fun i =>
        float_to_uint8_offsets (currLevelPitch * j + 3 * i)

/-- A 5x3 level of zero bytes and the 2x1 level allocated after it. -/
def fiveByThreeStep : MipLevel × MipLevel :=
  (⟨5, 3, List.replicate 45 0⟩, ⟨2, 1, List.replicate 6 0⟩)

/-- The channel `c` of a triple of channel values: 0 is red, 1 is green, any other index is
blue. -/
def channel (v : ℚ × ℚ × ℚ) (c : ℕ) : ℚ :=
  match c with
  | 0 => v.1
  | 1 => v.2.1
  | _ => v.2.2

/-- The value of `result` when `float_to_uint8` stores the output texel of row `j` and column
`i`, lines 251-258, 273-279 and 298-312: the weighted sum before it is converted to bytes. -/
def filteredTexel (prevLevel currLevel : MipLevel) (j i : ℕ) : ℚ × ℚ × ℚ :=
  let prevLevelPitch := prevLevel.width * 3
  let prevLevelMem := prevLevel.texels
  let wSupport := axisSupport prevLevel.width
  let wDecimal := axisDecimal prevLevel.width currLevel.width
  let hSupport := axisSupport prevLevel.height
  let hDecimal := axisDecimal prevLevel.height currLevel.height
  let wNorm : ℚ := 1 / (2 + wDecimal)
  let hNorm : ℚ := 1 / (2 + hDecimal)
  if currLevel.height = prevLevel.height then
    (List.range wSupport).foldl (fun result ii =>
      accumulate result (axisWeight wNorm wDecimal i ii)
        (uint8_to_float prevLevelMem (3 * (2 * i + ii)))) (0, 0, 0)
  else if currLevel.width = prevLevel.width then
    (List.range hSupport).foldl (fun result jj =>
      accumulate result (axisWeight hNorm hDecimal j jj)
        (uint8_to_float prevLevelMem (prevLevelPitch * (2 * j + jj)))) (0, 0, 0)
  else
    (List.range hSupport).foldl (fun result jj =>
      (List.range wSupport).foldl (fun result ii =>
        accumulate result (axisWeight hNorm hDecimal j jj * axisWeight wNorm wDecimal i ii)
          (uint8_to_float prevLevelMem
            (prevLevelPitch * (2 * j + jj) + 3 * (2 * i + ii)))) result) (0, 0, 0)

/-- The mean of the stored 8-bit values of a level, on the scale from 0 to 255. -/
def levelMean (l : MipLevel) : ℚ :=
  ((l.texels.sum : ℕ) : ℚ) / (l.texels.length : ℚ)

/-- The weight of the tap `k` of the filter of an axis for the output index `i`, lines 239-240
with 247-249 and 269-271, in a step from the extent `p` to the extent `q`. -/
def stepWeight (p q i k : ℕ) : ℚ :=
  axisWeight (1 / (2 + axisDecimal p q)) (axisDecimal p q) i k

/-- The channel `c` of the texel of row `y` and column `x` of a level, as `uint8_to_float`
reads it. -/
def sourceChannel (l : MipLevel) (c y x : ℕ) : ℚ :=
  (l.texels.getD (l.width * 3 * y + 3 * x + c) 0 : ℚ) / 255

/-- A 3x1 level of a red, a green and a blue texel, and the 1x1 level allocated after it. -/
def threeByOneStep : MipLevel × MipLevel :=
  (⟨3, 1, [255, 0, 0, 0, 255, 0, 0, 0, 255]⟩, ⟨1, 1, [0, 0, 0]⟩)

/-- The evaluation runtime has `sqrt 0 = 0`. -/
theorem dyadicRuntime_sqrt_zero : dyadicRuntime.sqrt 0 = 0 := by
  simp [dyadicRuntime]

/-- The evaluation runtime has `sqrt 16 = 4`. -/
theorem dyadicRuntime_sqrt_sixteen : dyadicRuntime.sqrt 16 = 4 := by
  have h : Nat.sqrt 16 = 4 := Nat.sqrt_eq 4
  have hn : (16 : ℚ).num = 16 := rfl
  have hd : (16 : ℚ).den = 1 := rfl
  simp [dyadicRuntime, hn, hd, h]

/-- The evaluation runtime has `log2 0 = -inf`. -/
theorem dyadicRuntime_log2_zero : dyadicRuntime.log2 0 = none := by
  simp [dyadicRuntime]

/-- The evaluation runtime has `log2 4 = 2`. -/
theorem dyadicRuntime_log2_four : dyadicRuntime.log2 4 = some 2 := by
  have hn : Nat.log 2 4 = 2 := by
    have := @Nat.log_pow 2 (by norm_num) 2
    simpa using this
  simp [dyadicRuntime, hn]

/-- With a zero footprint the clamped level is 0, given `sqrt 0 = 0` and `log2 0 = -inf`. -/
theorem clampedlevel_zero_footprint (rt : Runtime) (t : Texture) (sp : SampleParams)
    (hsqrt : rt.sqrt 0 = 0) (hlog : rt.log2 0 = none)
    (hdx : sp.p_dx_uv = sp.p_uv) (hdy : sp.p_dy_uv = sp.p_uv) :
    clampedlevel rt t sp = 0 := by
  simp [clampedlevel, hdx, hdy, hsqrt, hlog, clampFloat]

/-- The clamped level of the wide footprint on the 2x2 texture is 2. -/
theorem clampedlevel_wideFootprint (rt : Runtime) (fine coarse : List ℕ)
    (psm : PixelSampleMethod) (lsm : LevelSampleMethod)
    (h0 : rt.sqrt 0 = 0) (h16 : rt.sqrt 16 = 4) (hlog : rt.log2 4 = some 2)
    (hmax : 2 ≤ rt.max_size) :
    clampedlevel rt (twoLevelTexture fine coarse) (wideFootprint psm lsm) = 2 := by
  have e : ((2 : ℚ) * 2) ^ 2 = 16 := by norm_num
  have hm : (2 : ℚ) ≤ (rt.max_size : ℚ) := by exact_mod_cast hmax
  simp [clampedlevel, twoLevelTexture, wideFootprint, e, h0, h16, hlog, clampFloat, clamp, hm]

/-- `lerp` returns its `start` argument whatever the factor and the `end` colour are. -/
theorem lerp_eq_start (val : ℚ) (a b : Color) : lerp val a b = a := by
  cases a
  simp [lerp]

/-- `sample_bilinear` on an existing level is texel access at the base texel. -/
theorem sample_bilinear_eq_base (mipmap : List MipLevel) (uv : Vector2D) (level : ℚ)
    (l : MipLevel) (hl : levelAt mipmap ⌊level⌋ = some l) :
    sample_bilinear mipmap uv level =
      some (l.get_texel (bilinear_base l.width uv.x) (bilinear_base l.height uv.y)) := by
  simp [sample_bilinear, hl, lerp_eq_start, bilinear_texels]

/-- The fractional part of a level, converted to `int`, is 0. -/
theorem truncToInt_fract (level : ℚ) : truncToInt (level - ((⌊level⌋ : ℤ) : ℚ)) = 0 := by
  have h0 : 0 ≤ level - ((⌊level⌋ : ℤ) : ℚ) := sub_nonneg.mpr (Int.floor_le level)
  have h1 : level - ((⌊level⌋ : ℤ) : ℚ) < 1 := by
    have := Int.lt_floor_add_one level
    linarith
  unfold truncToInt
  rw [if_pos h0, Int.floor_eq_iff]
  constructor
  · simp [h0]
  · simpa using h1

/-- `sample_trilinear` is `sample_bilinear` on the floor of the level, for every level. -/
theorem sample_trilinear_eq_bilinear_floor (mipmap : List MipLevel) (uv : Vector2D)
    (level : ℚ) :
    sample_trilinear mipmap uv level = sample_bilinear mipmap uv ((⌊level⌋ : ℤ) : ℚ) := by
  unfold sample_trilinear
  simp only [truncToInt_fract]
  cases h : sample_bilinear mipmap uv ((⌊level⌋ : ℤ) : ℚ) with
  | none => rfl
  | some c => norm_num

/-- Halving with a floor of 1 commutes with the floor of 1 before it. -/
theorem halve_floor_one (w e : ℕ) :
    max 1 (max 1 (w / 2 ^ e) / 2) = max 1 (w / 2 ^ (e + 1)) := by
  have h : w / 2 ^ (e + 1) = w / 2 ^ e / 2 := by
    rw [pow_succ, Nat.div_div_eq_div_mul]
  rw [h]
  rcases Nat.eq_zero_or_pos (w / 2 ^ e) with h0 | h0
  · rw [h0]
    simp
  · rw [max_eq_right h0]

/-- A fold that keeps the length of its accumulator at every step keeps it overall. -/
theorem foldl_length_eq {α : Type} (f : List ℕ → α → List ℕ)
    (hf : ∀ m a, (f m a).length = m.length) (l : List α) (init : List ℕ) :
    (l.foldl f init).length = init.length := by
  induction l generalizing init with
  | nil => rfl
  | cons a l ih => rw [List.foldl_cons, ih, hf]

/-- `float_to_uint8` keeps the length of the buffer. -/
theorem float_to_uint8_length (mem : List ℕ) (dst : ℕ) (src : ℚ × ℚ × ℚ) :
    (float_to_uint8 mem dst src).length = mem.length := by
  simp [float_to_uint8]

/-- A downsampling step keeps the extents and the buffer length of the level it fills. -/
theorem downsample_shape (prevLevel currLevel : MipLevel) :
    levelShape (downsample prevLevel currLevel) = levelShape currLevel := by
  unfold downsample levelShape
  simp only
  split_ifs
  · simp only [Prod.mk.injEq, true_and]
    exact foldl_length_eq _ (fun m a => float_to_uint8_length _ _ _) _ _
  · simp only [Prod.mk.injEq, true_and]
    exact foldl_length_eq _ (fun m a => float_to_uint8_length _ _ _) _ _
  · simp only [Prod.mk.injEq, true_and]
    exact foldl_length_eq _
      (fun m a => foldl_length_eq _ (fun m a => float_to_uint8_length _ _ _) _ _) _ _

/-- `resize` gives a vector of the requested size. -/
theorem resize_length (mipmap : List MipLevel) (n : ℕ) : (resize mipmap n).length = n := by
  simp [resize]
  omega

/-- `resize` keeps the elements below both the old and the new size. -/
theorem resize_getElem? (mipmap : List MipLevel) (n i : ℕ) (hi : i < n)
    (hl : i < mipmap.length) : (resize mipmap n)[i]? = mipmap[i]? := by
  unfold resize
  rw [List.getElem?_append_left (by simp; omega), List.getElem?_take_of_lt hi]

/-- The allocation loop keeps the size of the vector. -/
theorem allocateLevels_length (s : ℕ) (mipmap : List MipLevel) (w h i k : ℕ) :
    (allocateLevels s mipmap w h i k).length = mipmap.length := by
  induction k generalizing mipmap w h i with
  | zero => rfl
  | succ k ih => simp [allocateLevels, ih]

/-- The allocation loop leaves the levels below its first index as they are. -/
theorem allocateLevels_below (s : ℕ) (mipmap : List MipLevel) (w h i k idx : ℕ)
    (hidx : idx < s + i) : (allocateLevels s mipmap w h i k)[idx]? = mipmap[idx]? := by
  induction k generalizing mipmap w h i with
  | zero => rfl
  | succ k ih =>
    simp only [allocateLevels]
    rw [ih _ _ _ _ (by omega), List.getElem?_set_ne (by omega)]

/-- The level that the allocation loop leaves at its `j`-th index: the base extents halved
`e + j + 1` times with a floor of 1, and a zeroed buffer of three bytes per texel. -/
theorem allocateLevels_at (s : ℕ) (mipmap : List MipLevel) (w h e i k j : ℕ)
    (hlen : s + i + k ≤ mipmap.length) (hj : j < k) :
    (allocateLevels s mipmap (max 1 (w / 2 ^ e)) (max 1 (h / 2 ^ e)) i k)[s + i + j]? =
      some ⟨max 1 (w / 2 ^ (e + j + 1)), max 1 (h / 2 ^ (e + j + 1)),
        List.replicate (3 * max 1 (w / 2 ^ (e + j + 1)) * max 1 (h / 2 ^ (e + j + 1))) 0⟩ := by
  induction k generalizing mipmap e i j with
  | zero => omega
  | succ k ih =>
    simp only [allocateLevels, halve_floor_one]
    cases j with
    | zero =>
      rw [allocateLevels_below _ _ _ _ _ _ _ (by omega)]
      simp only [Nat.add_zero]
      rw [List.getElem?_set_self (by omega)]
    | succ j =>
      have := ih (mipmap.set (s + i) ⟨max 1 (w / 2 ^ (e + 1)), max 1 (h / 2 ^ (e + 1)),
        List.replicate (3 * max 1 (w / 2 ^ (e + 1)) * max 1 (h / 2 ^ (e + 1))) 0⟩)
        (e + 1) (i + 1) j (by simp; omega) (by omega)
      have e1 : s + (i + 1) + j = s + i + (j + 1) := by omega
      have e2 : e + 1 + j + 1 = e + (j + 1) + 1 := by omega
      rw [e1, e2] at this
      exact this

/-- The loop that creates the mips keeps the size of the vector. -/
theorem createMips_length (mipmap : List MipLevel) (mipLevel k : ℕ) :
    (createMips mipmap mipLevel k).length = mipmap.length := by
  induction k generalizing mipmap mipLevel with
  | zero => rfl
  | succ k ih =>
    unfold createMips
    split
    · rw [ih, List.length_set]
    · rfl

/-- The loop that creates the mips keeps the extents and the buffer length of every level. -/
theorem createMips_shape (mipmap : List MipLevel) (mipLevel k idx : ℕ) :
    ((createMips mipmap mipLevel k)[idx]?).map levelShape = (mipmap[idx]?).map levelShape := by
  induction k generalizing mipmap mipLevel with
  | zero => rfl
  | succ k ih =>
    unfold createMips
    split
    · rename_i prevLevel currLevel hp hc
      rw [ih, List.getElem?_set]
      split_ifs with h1 h2
      · subst h1
        simp [hc, downsample_shape]
      · subst h1
        rw [List.getElem?_eq_none (by omega)]
      · rfl
    · rfl


/-- The store that `generate_mips` leaves when level `s` exists with positive extents and
the number `n` of sublevels is not negative: its size is `s + n + 1`, and the level `s + i`,
for `i` from 1 to `n`, has the base extents halved `i` times with a floor of 1 and a buffer
of three bytes per texel. -/
theorem generate_mips_store (kMax : ℕ) (mipmap : List MipLevel) (s : ℕ) (base : MipLevel)
    (hbase : mipmap[s]? = some base) (hw : 1 ≤ base.width) (hh : 1 ≤ base.height) (n : ℕ)
    (hn : (n : ℤ) = min (Nat.log 2 (max base.width base.height) : ℤ) ((kMax : ℤ) - s - 1)) :
    ∃ store, (generate_mips kMax mipmap s).mipmap = some store ∧
      store.length = s + n + 1 ∧
      ∀ i, 1 ≤ i → i ≤ n →
        (store[s + i]?).map levelShape =
          some (max 1 (base.width / 2 ^ i), max 1 (base.height / 2 ^ i),
            3 * max 1 (base.width / 2 ^ i) * max 1 (base.height / 2 ^ i)) := by
  have hlev : levelAt mipmap (s : ℤ) = some base := by simp [levelAt, hbase]
  have hmax : ¬ max base.width base.height = 0 := by omega
  have hs : s < mipmap.length := by
    rcases List.getElem?_eq_some.mp hbase with ⟨h, _⟩
    exact h
  have e1 : ((s : ℤ) + (n : ℤ) + 1).toNat = s + n + 1 := by omega
  have e2 : ((s : ℤ) + 1).toNat = s + 1 := by omega
  refine ⟨createMips (allocateLevels s (resize mipmap (s + n + 1)) base.width base.height 1 n)
    (s + 1) ((n : ℤ) - ((s : ℤ) + 1)).toNat, ?_, ?_, ?_⟩
  · unfold generate_mips
    simp only [hlev, hmax, if_false, ← hn, e1, e2, Int.toNat_ofNat]
  · rw [createMips_length, allocateLevels_length, resize_length]
  · intro i hi1 hin
    rw [createMips_shape]
    obtain ⟨j, rfl⟩ : ∃ j, i = 1 + j := ⟨i - 1, by omega⟩
    have h := allocateLevels_at s (resize mipmap (s + n + 1)) base.width base.height 0 1 n j
      (by rw [resize_length]; omega) (by omega)
    simp only [pow_zero, Nat.div_one, max_eq_right hw, max_eq_right hh, Nat.zero_add] at h
    have e3 : s + (1 + j) = s + 1 + j := by omega
    have e4 : 1 + j = j + 1 := by omega
    rw [e3, h, e4]
    simp [levelShape]

/-- The floor of the binary logarithm of 2 is 1. -/
theorem log_two_two : Nat.log 2 2 = 1 :=
  Nat.log_eq_of_pow_le_of_lt_pow (by norm_num) (by norm_num)

/-- The floor of the binary logarithm of 5 is 2. -/
theorem log_two_five : Nat.log 2 5 = 2 :=
  Nat.log_eq_of_pow_le_of_lt_pow (by norm_num) (by norm_num)

/-- The channel value 1 is stored as the byte 255. -/
theorem channel_to_uint8_one : channel_to_uint8 1 = 255 := by
  simp [channel_to_uint8, truncToInt]

/-- The loop that creates the mips leaves the levels below its first index as they are. -/
theorem createMips_below (mipmap : List MipLevel) (mipLevel k idx : ℕ)
    (hidx : idx < mipLevel) : (createMips mipmap mipLevel k)[idx]? = mipmap[idx]? := by
  induction k generalizing mipmap mipLevel with
  | zero => rfl
  | succ k ih =>
    unfold createMips
    split
    · rw [ih _ _ (by omega), List.getElem?_set_ne (by omega)]
    · rfl

/-- The store that `generate_mips` leaves when level `s` exists and its extents are not
both 0: the vector resized, the sublevels allocated, the mips created. -/
theorem generate_mips_eq (kMax : ℕ) (mipmap : List MipLevel) (s : ℕ) (base : MipLevel)
    (hbase : mipmap[s]? = some base) (hmax : max base.width base.height ≠ 0) :
    generate_mips kMax mipmap s =
      { cerr := []
        mipmap := some (createMips
          (allocateLevels s
            (resize mipmap ((s : ℤ) + min (Nat.log 2 (max base.width base.height) : ℤ)
              ((kMax : ℤ) - s - 1) + 1).toNat)
            base.width base.height 1
            (min (Nat.log 2 (max base.width base.height) : ℤ) ((kMax : ℤ) - s - 1)).toNat)
          (s + 1)
          (min (Nat.log 2 (max base.width base.height) : ℤ) ((kMax : ℤ) - s - 1)
            - ((s : ℤ) + 1)).toNat) } := by
  have hlev : levelAt mipmap (s : ℤ) = some base := by simp [levelAt, hbase]
  have hs : s < mipmap.length := by
    rcases List.getElem?_eq_some.mp hbase with ⟨h, _⟩
    exact h
  have hc : ¬ ((s : ℤ) < 0 ∨ (mipmap.length : ℤ) ≤ (s : ℤ)) := by omega
  have e2 : ((s : ℤ) + 1).toNat = s + 1 := by omega
  unfold generate_mips
  simp only [hlev, hmax, hc, if_false, e2, Int.toNat_ofNat]

/-- With level `s` existing, its extents not both 0 and `s` below the level cap,
`generate_mips` leaves a store in which every level up to `s` is as it was. -/
theorem generate_mips_below (kMax : ℕ) (mipmap : List MipLevel) (s : ℕ) (base : MipLevel)
    (hbase : mipmap[s]? = some base) (hmax : max base.width base.height ≠ 0)
    (hs : s < kMax) :
    ∃ store, (generate_mips kMax mipmap s).mipmap = some store ∧
      ∀ idx, idx ≤ s → idx < store.length ∧ store[idx]? = mipmap[idx]? := by
  have hlen : s < mipmap.length := by
    rcases List.getElem?_eq_some.mp hbase with ⟨h, _⟩
    exact h
  rw [generate_mips_eq kMax mipmap s base hbase hmax]
  refine ⟨_, rfl, ?_⟩
  intro idx hidx
  have hn : 0 ≤ min (Nat.log 2 (max base.width base.height) : ℤ) ((kMax : ℤ) - s - 1) := by
    apply le_min
    · exact Int.natCast_nonneg _
    · omega
  constructor
  · rw [createMips_length, allocateLevels_length, resize_length]
    omega
  · rw [createMips_below _ _ _ _ (by omega), allocateLevels_below _ _ _ _ _ _ _ (by omega),
      resize_getElem? _ _ _ (by omega) (by omega)]

/-- The colours that `sample_bilinear` fetches are texel access at `bilinear_coords`. -/
theorem bilinear_texels_eq_coords (l : MipLevel) (uv : Vector2D) :
    bilinear_texels l uv =
      (l.get_texel (bilinear_coords l uv).1.1 (bilinear_coords l uv).1.2,
        l.get_texel (bilinear_coords l uv).2.1.1 (bilinear_coords l uv).2.1.2,
        l.get_texel (bilinear_coords l uv).2.2.1.1 (bilinear_coords l uv).2.2.1.2,
        l.get_texel (bilinear_coords l uv).2.2.2.1 (bilinear_coords l uv).2.2.2.2) :=
  rfl

/-- The value that `uint8_to_float` returns depends on the buffer at the offsets
`uint8_to_float_offsets` only. -/
theorem uint8_to_float_congr (mem mem2 : List ℕ) (src : ℕ)
    (h : ∀ o ∈ uint8_to_float_offsets src, mem.getD o 0 = mem2.getD o 0) :
    uint8_to_float mem src = uint8_to_float mem2 src := by
  simp only [uint8_to_float_offsets, List.mem_cons, List.mem_singleton, List.not_mem_nil,
    or_false, forall_eq_or_imp, forall_eq] at h
  simp only [uint8_to_float, h.1, h.2.1, h.2.2]

/-- `float_to_uint8` leaves the buffer as it is outside the offsets
`float_to_uint8_offsets`. -/
theorem float_to_uint8_getElem?_of_not_mem (mem : List ℕ) (dst : ℕ) (src : ℚ × ℚ × ℚ)
    (k : ℕ) (hk : k ∉ float_to_uint8_offsets dst) :
    (float_to_uint8 mem dst src)[k]? = mem[k]? := by
  simp only [float_to_uint8_offsets, List.mem_cons, List.mem_singleton, List.not_mem_nil,
    or_false, not_or] at hk
  unfold float_to_uint8
  rw [List.getElem?_set_ne (by omega), List.getElem?_set_ne (by omega),
    List.getElem?_set_ne (by omega)]

/-- A tap of the support of an axis that shrinks lies inside the previous extent. -/
theorem tap_lt_extent (p i k : ℕ) (hi : i < p / 2) (hk : k < axisSupport p) :
    2 * i + k < p := by
  unfold axisSupport at hk
  split_ifs at hk <;> omega

/-- An offset of a texel inside a level of three bytes per texel is inside its buffer. -/
theorem texel_offset_lt (w h row col c : ℕ) (hrow : row < h) (hcol : col < w) (hc : c < 3) :
    w * 3 * row + 3 * col + c < 3 * w * h := by
  have h1 : w * (row + 1) ≤ w * h := Nat.mul_le_mul_left w hrow
  nlinarith

/-- The byte buffer that a downsampling step leaves is the buffer of the new level with the
bytes of `filteredTexel` stored by `float_to_uint8`, texel by texel. -/
theorem downsample_eq_filtered (prevLevel currLevel : MipLevel) :
    downsample prevLevel currLevel =
      { currLevel with
        texels :=
          if currLevel.height = prevLevel.height then
            (List.range currLevel.width).foldl (fun currLevelMem i =>
              float_to_uint8 currLevelMem (3 * i) (filteredTexel prevLevel currLevel 0 i))
              currLevel.texels
          else if currLevel.width = prevLevel.width then
            (List.range currLevel.height).foldl (fun currLevelMem j =>
              float_to_uint8 currLevelMem (currLevel.width * 3 * j)
                (filteredTexel prevLevel currLevel j 0)) currLevel.texels
          else
            (List.range currLevel.height).foldl (fun currLevelMem j =>
              (List.range currLevel.width).foldl (fun currLevelMem i =>
                float_to_uint8 currLevelMem (currLevel.width * 3 * j + 3 * i)
                  (filteredTexel prevLevel currLevel j i)) currLevelMem) currLevel.texels } := by
  unfold downsample filteredTexel
  simp only
  split_ifs <;> rfl

/-- Every channel of the zero triple is 0. -/
theorem channel_zero (c : ℕ) : channel (0, 0, 0) c = 0 := by
  unfold channel
  split <;> rfl

/-- The channel `c` of `accumulate`. -/
theorem channel_accumulate (result : ℚ × ℚ × ℚ) (weight : ℚ) (input : ℚ × ℚ × ℚ) (c : ℕ) :
    channel (accumulate result weight input) c = channel result c + weight * channel input c := by
  unfold channel accumulate
  split <;> rfl

/-- The channel `c` of `uint8_to_float`: the byte at `src + c`, divided by 255. -/
theorem channel_uint8_to_float (mem : List ℕ) (src c : ℕ) (hc : c < 3) :
    channel (uint8_to_float mem src) c = (mem.getD (src + c) 0 : ℚ) / 255 := by
  interval_cases c <;> rfl

/-- A fold over a range whose step adds `δ k` to the channel `c` adds the sum of the `δ k`. -/
theorem foldl_channel (g : ℚ × ℚ × ℚ → ℕ → ℚ × ℚ × ℚ) (δ : ℕ → ℚ) (c : ℕ)
    (hg : ∀ r k, channel (g r k) c = channel r c + δ k) (n : ℕ) (init : ℚ × ℚ × ℚ) :
    channel ((List.range n).foldl g init) c = channel init c + ∑ k ∈ Finset.range n, δ k := by
  induction n with
  | zero => simp
  | succ n ih =>
    rw [List.range_succ, List.foldl_append, List.foldl_cons, List.foldl_nil, hg, ih,
      Finset.sum_range_succ]
    ring


/-- The weighted sum of a step that shrinks the width only (case 1), channel by channel. -/
theorem channel_filteredTexel_row (prevLevel currLevel : MipLevel) (j i c : ℕ) (hc : c < 3)
    (h1 : currLevel.height = prevLevel.height) :
    channel (filteredTexel prevLevel currLevel j i) c =
      ∑ ii ∈ Finset.range (axisSupport prevLevel.width),
        stepWeight prevLevel.width currLevel.width i ii
          * sourceChannel prevLevel c 0 (2 * i + ii) := by
  unfold filteredTexel
  simp only [h1, if_true]
  rw [foldl_channel _ (fun ii => stepWeight prevLevel.width currLevel.width i ii
    * sourceChannel prevLevel c 0 (2 * i + ii)) c]
  · rw [channel_zero, zero_add]
  · intro r k
    rw [channel_accumulate, channel_uint8_to_float _ _ _ hc]
    simp [stepWeight, sourceChannel]

/-- The weighted sum of a step that shrinks the height only (case 2), channel by channel. -/
theorem channel_filteredTexel_column (prevLevel currLevel : MipLevel) (j i c : ℕ) (hc : c < 3)
    (h1 : ¬ currLevel.height = prevLevel.height) (h2 : currLevel.width = prevLevel.width) :
    channel (filteredTexel prevLevel currLevel j i) c =
      ∑ jj ∈ Finset.range (axisSupport prevLevel.height),
        stepWeight prevLevel.height currLevel.height j jj
          * sourceChannel prevLevel c (2 * j + jj) 0 := by
  unfold filteredTexel
  simp only [h1, h2, if_true, if_false]
  rw [foldl_channel _ (fun jj => stepWeight prevLevel.height currLevel.height j jj
    * sourceChannel prevLevel c (2 * j + jj) 0) c]
  · rw [channel_zero, zero_add]
  · intro r k
    rw [channel_accumulate, channel_uint8_to_float _ _ _ hc]
    simp [stepWeight, sourceChannel]

/-- The weighted sum of a step that shrinks both extents (case 3), channel by channel. -/
theorem channel_filteredTexel_grid (prevLevel currLevel : MipLevel) (j i c : ℕ) (hc : c < 3)
    (h1 : ¬ currLevel.height = prevLevel.height) (h2 : ¬ currLevel.width = prevLevel.width) :
    channel (filteredTexel prevLevel currLevel j i) c =
      ∑ jj ∈ Finset.range (axisSupport prevLevel.height),
        ∑ ii ∈ Finset.range (axisSupport prevLevel.width),
          stepWeight prevLevel.height currLevel.height j jj
            * stepWeight prevLevel.width currLevel.width i ii
            * sourceChannel prevLevel c (2 * j + jj) (2 * i + ii) := by
  unfold filteredTexel
  simp only [h1, h2, if_false]
  rw [foldl_channel _ (fun jj => ∑ ii ∈ Finset.range (axisSupport prevLevel.width),
    stepWeight prevLevel.height currLevel.height j jj
      * stepWeight prevLevel.width currLevel.width i ii
      * sourceChannel prevLevel c (2 * j + jj) (2 * i + ii)) c]
  · rw [channel_zero, zero_add]
  · intro r k
    rw [foldl_channel _ (fun ii => stepWeight prevLevel.height currLevel.height j k
      * stepWeight prevLevel.width currLevel.width i ii
      * sourceChannel prevLevel c (2 * j + k) (2 * i + ii)) c]
    intro r2 k2
    rw [channel_accumulate, channel_uint8_to_float _ _ _ hc]
    simp [stepWeight, sourceChannel]


/-- A sum over an even range, taken two terms at a time. -/
theorem sum_range_pairs (f : ℕ → ℚ) (m : ℕ) :
    ∑ x ∈ Finset.range (2 * m), f x = ∑ i ∈ Finset.range m, (f (2 * i) + f (2 * i + 1)) := by
  induction m with
  | zero => simp
  | succ m ih =>
    rw [show 2 * (m + 1) = 2 * m + 1 + 1 by ring, Finset.sum_range_succ, Finset.sum_range_succ,
      ih, Finset.sum_range_succ]
    ring

/-- The three-tap filter summed over the first `m` outputs: every source value below `2 m`
has the total weight `N`, and the value at `2 m` has the weight `N d m` so far. -/
theorem sum_three_taps (N d : ℚ) (f : ℕ → ℚ) (m : ℕ) :
    ∑ i ∈ Finset.range m,
        (N * (1 - d * (i : ℚ)) * f (2 * i) + N * 1 * f (2 * i + 1)
          + N * d * ((i : ℚ) + 1) * f (2 * i + 2))
      = N * ∑ x ∈ Finset.range (2 * m), f x + N * d * (m : ℚ) * f (2 * m) := by
  induction m with
  | zero => simp
  | succ m ih =>
    rw [Finset.sum_range_succ, ih, show 2 * (m + 1) = 2 * m + 1 + 1 by ring,
      Finset.sum_range_succ, Finset.sum_range_succ]
    push_cast
    ring

/-- The filter of an axis that shrinks from `p ≥ 2` to `⌊p / 2⌋`, summed over all outputs:
every source value has the total weight `⌊p / 2⌋ / p`. -/
theorem axis_filter_sum (p : ℕ) (hp : 2 ≤ p) (f : ℕ → ℚ) :
    ∑ i ∈ Finset.range (p / 2), ∑ k ∈ Finset.range (axisSupport p),
        stepWeight p (p / 2) i k * f (2 * i + k)
      = ((p / 2 : ℕ) : ℚ) / (p : ℚ) * ∑ x ∈ Finset.range p, f x := by
  obtain ⟨E, hE⟩ : ∃ E, p / 2 = E := ⟨_, rfl⟩
  have hEq : (0 : ℚ) < (E : ℚ) := by
    have : 0 < E := by omega
    exact_mod_cast this
  rcases Nat.mod_two_eq_zero_or_one p with h0 | h1
  · have hne : ¬ p % 2 = 1 := by omega
    have hS : axisSupport p = 2 := by simp [axisSupport, hne]
    have hD : axisDecimal p (p / 2) = 0 := by simp [axisDecimal, hne]
    have hp2 : p = 2 * E := by omega
    rw [hS]
    simp only [stepWeight, hD, Finset.sum_range_succ, Finset.sum_range_zero, axisWeight]
    rw [hE]
    subst hp2
    rw [sum_range_pairs, Finset.mul_sum]
    apply Finset.sum_congr rfl
    intro i _
    push_cast
    field_simp
    ring
  · have hS : axisSupport p = 3 := by simp [axisSupport, h1]
    have hD : axisDecimal p (p / 2) = 1 / ((p / 2 : ℕ) : ℚ) := by simp [axisDecimal, h1]
    have hp2 : p = 2 * E + 1 := by omega
    rw [hS]
    simp only [stepWeight, hD, Finset.sum_range_succ, Finset.sum_range_zero, axisWeight,
      zero_add, Nat.add_zero]
    rw [sum_three_taps, hE]
    subst hp2
    rw [Finset.sum_range_succ]
    push_cast
    field_simp
    ring


/-- The weights of an axis sum to 1 over its support. -/
theorem stepWeight_sum (p q i : ℕ) (hq : 1 ≤ q) :
    ∑ k ∈ Finset.range (axisSupport p), stepWeight p q i k = 1 := by
  have hc : (0 : ℚ) < (q : ℚ) := by exact_mod_cast hq
  rcases Nat.mod_two_eq_zero_or_one p with h0 | h1
  · have hne : ¬ p % 2 = 1 := by omega
    have hS : axisSupport p = 2 := by simp [axisSupport, hne]
    have hD : axisDecimal p q = 0 := by simp [axisDecimal, hne]
    rw [hS]
    simp only [stepWeight, hD, Finset.sum_range_succ, Finset.sum_range_zero, axisWeight]
    norm_num
  · have hS : axisSupport p = 3 := by simp [axisSupport, h1]
    have hD : axisDecimal p q = 1 / (q : ℚ) := by simp [axisDecimal, h1]
    rw [hS]
    simp only [stepWeight, hD, Finset.sum_range_succ, Finset.sum_range_zero, axisWeight]
    field_simp
    ring

/-- The weights of an axis are not negative for an output index below the new extent. -/
theorem stepWeight_nonneg (p q i k : ℕ) (hi : i < q) : 0 ≤ stepWeight p q i k := by
  have hc : (0 : ℚ) < (q : ℚ) := by
    have : 0 < q := by omega
    exact_mod_cast this
  have hiq : (i : ℚ) < (q : ℚ) := by exact_mod_cast hi
  have hi0 : (0 : ℚ) ≤ (i : ℚ) := Nat.cast_nonneg i
  have hd0 : 0 ≤ axisDecimal p q := by
    unfold axisDecimal
    split_ifs
    · positivity
    · exact le_refl 0
  have hd1 : axisDecimal p q * (i : ℚ) ≤ 1 := by
    unfold axisDecimal
    split_ifs
    · rw [one_div, inv_mul_le_iff₀ hc]
      linarith
    · simp
  have hN : 0 ≤ 1 / (2 + axisDecimal p q) := by positivity
  unfold stepWeight axisWeight
  split
  · exact mul_nonneg hN (by linarith)
  · exact mul_nonneg hN (by norm_num)
  · exact mul_nonneg (mul_nonneg hN hd0) (by linarith)

/-- A channel value read from a buffer of bytes lies between 0 and 1. -/
theorem sourceChannel_bounds (l : MipLevel) (hbyte : ∀ b ∈ l.texels, b ≤ 255) (c y x : ℕ) :
    0 ≤ sourceChannel l c y x ∧ sourceChannel l c y x ≤ 1 := by
  have h : l.texels.getD (l.width * 3 * y + 3 * x + c) 0 ≤ 255 := by
    rw [List.getD_eq_getElem?_getD]
    cases hk : l.texels[l.width * 3 * y + 3 * x + c]? with
    | none => simp
    | some b =>
      simp only [Option.getD_some]
      exact hbyte b (List.getElem?_mem hk)
  have hq : ((l.texels.getD (l.width * 3 * y + 3 * x + c) 0 : ℕ) : ℚ) ≤ 255 := by
    exact_mod_cast h
  unfold sourceChannel
  constructor
  · positivity
  · rw [div_le_one (by norm_num)]
    exact hq

/-- A sum of values between 0 and 1 under weights that are not negative and sum to 1 lies
between 0 and 1. -/
theorem weighted_sum_bounds (n : ℕ) (a x : ℕ → ℚ) (ha : ∀ k, 0 ≤ a k)
    (hsum : ∑ k ∈ Finset.range n, a k = 1) (hx : ∀ k, 0 ≤ x k ∧ x k ≤ 1) :
    0 ≤ ∑ k ∈ Finset.range n, a k * x k ∧ ∑ k ∈ Finset.range n, a k * x k ≤ 1 := by
  constructor
  · exact Finset.sum_nonneg (fun k _ => mul_nonneg (ha k) (hx k).1)
  · rw [← hsum]
    apply Finset.sum_le_sum
    intro k _
    exact mul_le_of_le_one_right (ha k) (hx k).2


/-- The weighted sum of every output texel of a downsampling step from a buffer of bytes lies
between 0 and 1 in each channel. -/
theorem filteredTexel_bounds (prevLevel currLevel : MipLevel)
    (hcw : 1 ≤ currLevel.width) (hch : 1 ≤ currLevel.height)
    (hbyte : ∀ b ∈ prevLevel.texels, b ≤ 255) (j i c : ℕ)
    (hj : j < currLevel.height) (hi : i < currLevel.width) (hc : c < 3) :
    0 ≤ channel (filteredTexel prevLevel currLevel j i) c ∧
      channel (filteredTexel prevLevel currLevel j i) c ≤ 1 := by
  by_cases h1 : currLevel.height = prevLevel.height
  · rw [channel_filteredTexel_row _ _ _ _ _ hc h1]
    exact weighted_sum_bounds _ _ _ (fun k => stepWeight_nonneg _ _ _ k hi)
      (stepWeight_sum _ _ _ hcw) (fun k => sourceChannel_bounds _ hbyte _ _ _)
  · by_cases h2 : currLevel.width = prevLevel.width
    · rw [channel_filteredTexel_column _ _ _ _ _ hc h1 h2]
      exact weighted_sum_bounds _ _ _ (fun k => stepWeight_nonneg _ _ _ k hj)
        (stepWeight_sum _ _ _ hch) (fun k => sourceChannel_bounds _ hbyte _ _ _)
    · rw [channel_filteredTexel_grid _ _ _ _ _ hc h1 h2]
      simp only [mul_assoc, ← Finset.mul_sum]
      exact weighted_sum_bounds _ _ _ (fun k => stepWeight_nonneg _ _ _ k hj)
        (stepWeight_sum _ _ _ hch)
        (fun k => weighted_sum_bounds _ _ _ (fun k => stepWeight_nonneg _ _ _ k hi)
          (stepWeight_sum _ _ _ hcw) (fun k2 => sourceChannel_bounds _ hbyte _ _ _))

/-- The weighted sums of a downsampling step, added over all output texels, are the channel
values of the previous level, added over all its texels, in the ratio of the numbers of
texels. -/
theorem filteredTexel_sum (prevLevel currLevel : MipLevel)
    (hw : 1 ≤ prevLevel.width) (hh : 1 ≤ prevLevel.height)
    (hnot : ¬ (prevLevel.width = 1 ∧ prevLevel.height = 1))
    (hcw : currLevel.width = max 1 (prevLevel.width / 2))
    (hch : currLevel.height = max 1 (prevLevel.height / 2)) (c : ℕ) (hc : c < 3) :
    ∑ j ∈ Finset.range currLevel.height, ∑ i ∈ Finset.range currLevel.width,
        channel (filteredTexel prevLevel currLevel j i) c
      = ((currLevel.width : ℚ) * (currLevel.height : ℚ))
          / ((prevLevel.width : ℚ) * (prevLevel.height : ℚ))
        * ∑ y ∈ Finset.range prevLevel.height, ∑ x ∈ Finset.range prevLevel.width,
            sourceChannel prevLevel c y x := by
  by_cases h1 : currLevel.height = prevLevel.height
  · have hh1 : prevLevel.height = 1 := by omega
    have hw2 : 2 ≤ prevLevel.width := by omega
    have hcw2 : currLevel.width = prevLevel.width / 2 := by omega
    simp only [channel_filteredTexel_row _ _ _ _ _ hc h1]
    rw [h1, hh1, hcw2]
    simp only [Finset.sum_range_one, Nat.cast_one, mul_one]
    exact axis_filter_sum prevLevel.width hw2 (fun x => sourceChannel prevLevel c 0 x)
  · by_cases h2 : currLevel.width = prevLevel.width
    · have hw1 : prevLevel.width = 1 := by omega
      have hh2 : 2 ≤ prevLevel.height := by omega
      have hch2 : currLevel.height = prevLevel.height / 2 := by omega
      simp only [channel_filteredTexel_column _ _ _ _ _ hc h1 h2]
      rw [h2, hw1, hch2]
      simp only [Finset.sum_range_one, Nat.cast_one, one_mul]
      exact axis_filter_sum prevLevel.height hh2 (fun y => sourceChannel prevLevel c y 0)
    · have hw2 : 2 ≤ prevLevel.width := by omega
      have hh2 : 2 ≤ prevLevel.height := by omega
      have hcw2 : currLevel.width = prevLevel.width / 2 := by omega
      have hch2 : currLevel.height = prevLevel.height / 2 := by omega
      have hwq : (0 : ℚ) < (prevLevel.width : ℚ) := by exact_mod_cast hw
      have hhq : (0 : ℚ) < (prevLevel.height : ℚ) := by exact_mod_cast hh
      simp only [channel_filteredTexel_grid _ _ _ _ _ hc h1 h2]
      rw [hcw2, hch2]
      have inner : ∀ j jj : ℕ,
          ∑ i ∈ Finset.range (prevLevel.width / 2),
            ∑ ii ∈ Finset.range (axisSupport prevLevel.width),
              stepWeight prevLevel.height (prevLevel.height / 2) j jj
                * stepWeight prevLevel.width (prevLevel.width / 2) i ii
                * sourceChannel prevLevel c (2 * j + jj) (2 * i + ii)
            = stepWeight prevLevel.height (prevLevel.height / 2) j jj
                * (((prevLevel.width / 2 : ℕ) : ℚ) / (prevLevel.width : ℚ)
                  * ∑ x ∈ Finset.range prevLevel.width,
                      sourceChannel prevLevel c (2 * j + jj) x) := by
        intro j jj
        rw [← axis_filter_sum prevLevel.width hw2
          (fun x => sourceChannel prevLevel c (2 * j + jj) x)]
        simp only [mul_assoc, ← Finset.mul_sum]
      have swap : ∀ j : ℕ,
          ∑ i ∈ Finset.range (prevLevel.width / 2),
            ∑ jj ∈ Finset.range (axisSupport prevLevel.height),
              ∑ ii ∈ Finset.range (axisSupport prevLevel.width),
                stepWeight prevLevel.height (prevLevel.height / 2) j jj
                  * stepWeight prevLevel.width (prevLevel.width / 2) i ii
                  * sourceChannel prevLevel c (2 * j + jj) (2 * i + ii)
            = ∑ jj ∈ Finset.range (axisSupport prevLevel.height),
                stepWeight prevLevel.height (prevLevel.height / 2) j jj
                  * (((prevLevel.width / 2 : ℕ) : ℚ) / (prevLevel.width : ℚ)
                    * ∑ x ∈ Finset.range prevLevel.width,
                        sourceChannel prevLevel c (2 * j + jj) x) := by
        intro j
        rw [Finset.sum_comm]
        exact Finset.sum_congr rfl (fun jj _ => inner j jj)
      simp only [swap]
      have outer := axis_filter_sum prevLevel.height hh2
        (fun y => ((prevLevel.width / 2 : ℕ) : ℚ) / (prevLevel.width : ℚ)
          * ∑ x ∈ Finset.range prevLevel.width, sourceChannel prevLevel c y x)
      simp only at outer
      rw [outer, ← Finset.mul_sum]
      field_simp
      ring


/-- `float_to_uint8` stores the byte of the channel `c` at the offset `dst + c`. -/
theorem float_to_uint8_getElem?_of_lt (mem : List ℕ) (dst : ℕ) (src : ℚ × ℚ × ℚ) (c : ℕ)
    (hc : c < 3) (hlen : dst + 3 ≤ mem.length) :
    (float_to_uint8 mem dst src)[dst + c]? = some (channel_to_uint8 (channel src c)) := by
  unfold float_to_uint8
  interval_cases c
  · simp only [Nat.add_zero]
    rw [List.getElem?_set_ne (by omega), List.getElem?_set_ne (by omega),
      List.getElem?_set_self (by omega)]
    rfl
  · rw [List.getElem?_set_ne (by omega), List.getElem?_set_self (by simp; omega)]
    rfl
  · rw [List.getElem?_set_self (by simp; omega)]
    rfl

/-- A row of stores leaves the buffer as it is outside the row. -/
theorem foldl_row_untouched (val : ℕ → ℚ × ℚ × ℚ) (base m : ℕ) (mem : List ℕ) (k : ℕ)
    (hk : k < base ∨ base + 3 * m ≤ k) :
    ((List.range m).foldl (fun mem i => float_to_uint8 mem (base + 3 * i) (val i)) mem)[k]?
      = mem[k]? := by
  induction m with
  | zero => rfl
  | succ m ih =>
    rw [List.range_succ, List.foldl_append, List.foldl_cons, List.foldl_nil,
      float_to_uint8_getElem?_of_not_mem _ _ _ _
        (by simp only [float_to_uint8_offsets, List.mem_cons, List.mem_singleton,
              List.not_mem_nil, or_false]; omega),
      ih (by omega)]

/-- A row of stores keeps the length of the buffer. -/
theorem foldl_row_length (val : ℕ → ℚ × ℚ × ℚ) (base m : ℕ) (mem : List ℕ) :
    ((List.range m).foldl (fun mem i => float_to_uint8 mem (base + 3 * i) (val i)) mem).length
      = mem.length :=
  foldl_length_eq _ (fun _ _ => float_to_uint8_length _ _ _) _ _

/-- A row of stores leaves the byte of the channel `c` of its `i`-th value at the offset
`base + 3 i + c`. -/
theorem foldl_row_written (val : ℕ → ℚ × ℚ × ℚ) (base m : ℕ) (mem : List ℕ)
    (hlen : base + 3 * m ≤ mem.length) (i c : ℕ) (hi : i < m) (hc : c < 3) :
    ((List.range m).foldl (fun mem i => float_to_uint8 mem (base + 3 * i) (val i))
        mem)[base + 3 * i + c]?
      = some (channel_to_uint8 (channel (val i) c)) := by
  induction m with
  | zero => omega
  | succ m ih =>
    rw [List.range_succ, List.foldl_append, List.foldl_cons, List.foldl_nil]
    rcases Nat.lt_or_ge i m with him | him
    · rw [float_to_uint8_getElem?_of_not_mem _ _ _ _
        (by simp only [float_to_uint8_offsets, List.mem_cons, List.mem_singleton,
              List.not_mem_nil, or_false]; omega)]
      exact ih (by omega) him
    · have him2 : i = m := by omega
      subst him2
      exact float_to_uint8_getElem?_of_lt _ _ _ _ hc (by rw [foldl_row_length]; omega)

/-- A grid of stores, row after row, keeps the length of the buffer. -/
theorem foldl_grid_length (val : ℕ → ℕ → ℚ × ℚ × ℚ) (W n : ℕ) (mem : List ℕ) :
    ((List.range n).foldl (fun mem j =>
        (List.range W).foldl (fun mem i =>
          float_to_uint8 mem (W * 3 * j + 3 * i) (val j i)) mem) mem).length
      = mem.length :=
  foldl_length_eq _ (fun _ _ => foldl_length_eq _ (fun _ _ => float_to_uint8_length _ _ _) _ _)
    _ _

/-- A grid of stores leaves the byte of the channel `c` of the value of row `j` and column
`i` at the offset `3 W j + 3 i + c`. -/
theorem foldl_grid_written (val : ℕ → ℕ → ℚ × ℚ × ℚ) (W n : ℕ) (mem : List ℕ)
    (hlen : W * 3 * n ≤ mem.length) (j i c : ℕ) (hj : j < n) (hi : i < W) (hc : c < 3) :
    ((List.range n).foldl (fun mem j =>
        (List.range W).foldl (fun mem i =>
          float_to_uint8 mem (W * 3 * j + 3 * i) (val j i)) mem) mem)[W * 3 * j + 3 * i + c]?
      = some (channel_to_uint8 (channel (val j i) c)) := by
  induction n with
  | zero => omega
  | succ n ih =>
    have hmul : W * 3 * (n + 1) = W * 3 * n + 3 * W := by ring
    rw [List.range_succ, List.foldl_append, List.foldl_cons, List.foldl_nil]
    rcases Nat.lt_or_ge j n with hjn | hjn
    · have hlt : W * 3 * j + 3 * i + c < W * 3 * n := by
        have : W * 3 * (j + 1) ≤ W * 3 * n := Nat.mul_le_mul_left _ hjn
        have e : W * 3 * (j + 1) = W * 3 * j + 3 * W := by ring
        omega
      rw [foldl_row_untouched (val n) (W * 3 * n) W _ _ (Or.inl hlt)]
      exact ih (by omega) hjn
    · have hjn2 : j = n := by omega
      subst hjn2
      exact foldl_row_written (val j) (W * 3 * j) W _ (by rw [foldl_grid_length]; omega) i c
        hi hc

/-- The sum of a list of bytes is the sum of its entries over the indices. -/
theorem list_sum_eq_sum_range (l : List ℕ) :
    ((l.sum : ℕ) : ℚ) = ∑ k ∈ Finset.range l.length, (l.getD k 0 : ℚ) := by
  induction l with
  | nil => simp
  | cons a l ih =>
    rw [List.length_cons, Finset.sum_range_succ', List.sum_cons, Nat.cast_add, ih]
    simp [add_comm]

/-- A sum over the range of a product, taken block by block. -/
theorem sum_range_mul (f : ℕ → ℚ) (a b : ℕ) :
    ∑ k ∈ Finset.range (a * b), f k
      = ∑ i ∈ Finset.range a, ∑ j ∈ Finset.range b, f (b * i + j) := by
  induction a with
  | zero => simp
  | succ a ih =>
    rw [show (a + 1) * b = a * b + b by ring, Finset.sum_range_add, ih, Finset.sum_range_succ,
      Nat.mul_comm a b]

/-- The sum of a buffer of three bytes per texel, taken row by row, texel by texel and
channel by channel. -/
theorem level_sum_grid (l : List ℕ) (W H : ℕ) (hlen : l.length = 3 * W * H) :
    ((l.sum : ℕ) : ℚ) = ∑ j ∈ Finset.range H, ∑ i ∈ Finset.range W, ∑ c ∈ Finset.range 3,
      (l.getD (W * 3 * j + 3 * i + c) 0 : ℚ) := by
  rw [list_sum_eq_sum_range, hlen, show 3 * W * H = H * (W * 3) by ring, sum_range_mul]
  apply Finset.sum_congr rfl
  intro j _
  rw [sum_range_mul (fun r => (l.getD (W * 3 * j + r) 0 : ℚ)) W 3]
  apply Finset.sum_congr rfl
  intro i _
  apply Finset.sum_congr rfl
  intro c _
  rw [Nat.add_assoc]


/-- The byte stored for a channel value `x` between 0 and 1 is `255 x` rounded down. -/
theorem channel_to_uint8_bounds (x : ℚ) (h0 : 0 ≤ x) (h1 : x ≤ 1) :
    ((channel_to_uint8 x : ℕ) : ℚ) ≤ 255 * x ∧ 255 * x < ((channel_to_uint8 x : ℕ) : ℚ) + 1 := by
  have hx : max 0 (min 1 x) = x := by
    rw [min_eq_right h1, max_eq_right h0]
  have hy0 : (0 : ℚ) ≤ 255 * x := by positivity
  have hy1 : 255 * x ≤ 255 := by linarith
  have hfl0 : 0 ≤ ⌊255 * x⌋ := Int.floor_nonneg.mpr hy0
  have hfl1 : ⌊255 * x⌋ ≤ 255 := by
    have : ((⌊255 * x⌋ : ℤ) : ℚ) ≤ 255 := le_trans (Int.floor_le _) hy1
    exact_mod_cast this
  have hval : ((channel_to_uint8 x : ℕ) : ℤ) = ⌊255 * x⌋ := by
    unfold channel_to_uint8 truncToInt
    rw [hx, if_pos hy0]
    omega
  have hq : ((channel_to_uint8 x : ℕ) : ℚ) = ((⌊255 * x⌋ : ℤ) : ℚ) := by
    rw [← hval]
    simp
  rw [hq]
  exact ⟨Int.floor_le _, Int.lt_floor_add_one _⟩

/-- The byte that a downsampling step leaves for the channel `c` of the output texel of row
`j` and column `i`: the byte of the weighted sum. -/
theorem downsample_getD (prevLevel currLevel : MipLevel)
    (hw : 1 ≤ prevLevel.width) (hh : 1 ≤ prevLevel.height)
    (hcw : currLevel.width = max 1 (prevLevel.width / 2))
    (hch : currLevel.height = max 1 (prevLevel.height / 2))
    (hclen : currLevel.texels.length = 3 * currLevel.width * currLevel.height)
    (j i c : ℕ) (hj : j < currLevel.height) (hi : i < currLevel.width) (hc : c < 3) :
    (downsample prevLevel currLevel).texels.getD (currLevel.width * 3 * j + 3 * i + c) 0
      = channel_to_uint8 (channel (filteredTexel prevLevel currLevel j i) c) := by
  rw [downsample_eq_filtered, List.getD_eq_getElem?_getD]
  simp only
  by_cases h1 : currLevel.height = prevLevel.height
  · have hH : currLevel.height = 1 := by omega
    have hj0 : j = 0 := by omega
    subst hj0
    have key := foldl_row_written (fun i => filteredTexel prevLevel currLevel 0 i) 0
      currLevel.width currLevel.texels (by rw [hclen, hH]; omega) i c hi hc
    simp only [Nat.zero_add] at key
    simp only [h1, if_true, Nat.mul_zero, Nat.zero_add]
    rw [key]
    rfl
  · by_cases h2 : currLevel.width = prevLevel.width
    · have hW : currLevel.width = 1 := by omega
      have hi0 : i = 0 := by omega
      subst hi0
      have key := foldl_row_written (fun j => filteredTexel prevLevel currLevel j 0) 0
        currLevel.height currLevel.texels (by rw [hclen, hW]; omega) j c hj hc
      simp only [Nat.zero_add] at key
      simp only [h1, h2, if_true, if_false, Nat.mul_zero, Nat.add_zero]
      rw [← h2, hW]
      simp only [Nat.one_mul]
      rw [key]
      rfl
    · simp only [h1, h2, if_false]
      rw [foldl_grid_written (fun j i => filteredTexel prevLevel currLevel j i) currLevel.width
        currLevel.height currLevel.texels (by rw [hclen]; exact le_of_eq (by ring)) j i c hj hi
        hc]
      rfl


/-- A triple sum with its innermost index taken outermost. -/
theorem sum_comm_inner (f : ℕ → ℕ → ℕ → ℚ) (H W : ℕ) :
    ∑ j ∈ Finset.range H, ∑ i ∈ Finset.range W, ∑ c ∈ Finset.range 3, f j i c
      = ∑ c ∈ Finset.range 3, ∑ j ∈ Finset.range H, ∑ i ∈ Finset.range W, f j i c := by
  calc ∑ j ∈ Finset.range H, ∑ i ∈ Finset.range W, ∑ c ∈ Finset.range 3, f j i c
      = ∑ j ∈ Finset.range H, ∑ c ∈ Finset.range 3, ∑ i ∈ Finset.range W, f j i c :=
        Finset.sum_congr rfl (fun j _ => Finset.sum_comm)
    _ = ∑ c ∈ Finset.range 3, ∑ j ∈ Finset.range H, ∑ i ∈ Finset.range W, f j i c :=
        Finset.sum_comm

/-- The weighted sums of a downsampling step, added over all output texels and channels, in
terms of the sum of the bytes of the previous level. -/
theorem filteredTexel_total (prevLevel currLevel : MipLevel)
    (hw : 1 ≤ prevLevel.width) (hh : 1 ≤ prevLevel.height)
    (hnot : ¬ (prevLevel.width = 1 ∧ prevLevel.height = 1))
    (hcw : currLevel.width = max 1 (prevLevel.width / 2))
    (hch : currLevel.height = max 1 (prevLevel.height / 2))
    (hplen : prevLevel.texels.length = 3 * prevLevel.width * prevLevel.height) :
    ∑ j ∈ Finset.range currLevel.height, ∑ i ∈ Finset.range currLevel.width,
        ∑ c ∈ Finset.range 3, channel (filteredTexel prevLevel currLevel j i) c
      = ((currLevel.width : ℚ) * (currLevel.height : ℚ))
          / ((prevLevel.width : ℚ) * (prevLevel.height : ℚ))
        * (((prevLevel.texels.sum : ℕ) : ℚ) / 255) := by
  rw [sum_comm_inner, level_sum_grid prevLevel.texels prevLevel.width prevLevel.height hplen,
    sum_comm_inner, Finset.sum_div, Finset.mul_sum]
  apply Finset.sum_congr rfl
  intro c hc
  rw [filteredTexel_sum prevLevel currLevel hw hh hnot hcw hch c (Finset.mem_range.mp hc)]
  congr 1
  rw [Finset.sum_div]
  apply Finset.sum_congr rfl
  intro y _
  rw [Finset.sum_div]
  rfl


/-- The sum of the bytes that a downsampling step stores lies within one unit per byte below
255 times the sum of the weighted sums. -/
theorem downsample_sum_bounds (prevLevel currLevel : MipLevel)
    (hw : 1 ≤ prevLevel.width) (hh : 1 ≤ prevLevel.height)
    (hcw : currLevel.width = max 1 (prevLevel.width / 2))
    (hch : currLevel.height = max 1 (prevLevel.height / 2))
    (hclen : currLevel.texels.length = 3 * currLevel.width * currLevel.height)
    (hbyte : ∀ b ∈ prevLevel.texels, b ≤ 255) :
    (((downsample prevLevel currLevel).texels.sum : ℕ) : ℚ)
        ≤ 255 * ∑ j ∈ Finset.range currLevel.height, ∑ i ∈ Finset.range currLevel.width,
            ∑ c ∈ Finset.range 3, channel (filteredTexel prevLevel currLevel j i) c ∧
      255 * ∑ j ∈ Finset.range currLevel.height, ∑ i ∈ Finset.range currLevel.width,
            ∑ c ∈ Finset.range 3, channel (filteredTexel prevLevel currLevel j i) c
        < (((downsample prevLevel currLevel).texels.sum : ℕ) : ℚ)
          + 3 * (currLevel.width : ℚ) * (currLevel.height : ℚ) := by
  have hW : 1 ≤ currLevel.width := by omega
  have hH : 1 ≤ currLevel.height := by omega
  have hlen : (downsample prevLevel currLevel).texels.length
      = 3 * currLevel.width * currLevel.height := by
    have := congrArg (fun s => s.2.2) (downsample_shape prevLevel currLevel)
    simp only [levelShape] at this
    rw [this, hclen]
  have hsum : (((downsample prevLevel currLevel).texels.sum : ℕ) : ℚ)
      = ∑ j ∈ Finset.range currLevel.height, ∑ i ∈ Finset.range currLevel.width,
          ∑ c ∈ Finset.range 3,
            ((channel_to_uint8 (channel (filteredTexel prevLevel currLevel j i) c) : ℕ) : ℚ) := by
    rw [level_sum_grid _ currLevel.width currLevel.height hlen]
    apply Finset.sum_congr rfl
    intro j hj
    apply Finset.sum_congr rfl
    intro i hi
    apply Finset.sum_congr rfl
    intro c hc
    rw [downsample_getD prevLevel currLevel hw hh hcw hch hclen j i c (Finset.mem_range.mp hj)
      (Finset.mem_range.mp hi) (Finset.mem_range.mp hc)]
  have hb : ∀ j ∈ Finset.range currLevel.height, ∀ i ∈ Finset.range currLevel.width,
      ∀ c ∈ Finset.range 3,
        ((channel_to_uint8 (channel (filteredTexel prevLevel currLevel j i) c) : ℕ) : ℚ)
            ≤ 255 * channel (filteredTexel prevLevel currLevel j i) c ∧
          255 * channel (filteredTexel prevLevel currLevel j i) c
            < ((channel_to_uint8 (channel (filteredTexel prevLevel currLevel j i) c) : ℕ) : ℚ)
              + 1 := by
    intro j hj i hi c hc
    have hr := filteredTexel_bounds prevLevel currLevel hW hH hbyte j i c
      (Finset.mem_range.mp hj) (Finset.mem_range.mp hi) (Finset.mem_range.mp hc)
    exact channel_to_uint8_bounds _ hr.1 hr.2
  have hne3 : (Finset.range 3).Nonempty := Finset.nonempty_range_iff.mpr (by norm_num)
  have hneW : (Finset.range currLevel.width).Nonempty :=
    Finset.nonempty_range_iff.mpr (by omega)
  have hneH : (Finset.range currLevel.height).Nonempty :=
    Finset.nonempty_range_iff.mpr (by omega)
  constructor
  · rw [hsum]
    simp only [Finset.mul_sum]
    exact Finset.sum_le_sum (fun j hj => Finset.sum_le_sum (fun i hi =>
      Finset.sum_le_sum (fun c hc => (hb j hj i hi c hc).1)))
  · have hone : ∑ j ∈ Finset.range currLevel.height, ∑ i ∈ Finset.range currLevel.width,
        ∑ c ∈ Finset.range 3, (1 : ℚ) = 3 * (currLevel.width : ℚ) * (currLevel.height : ℚ) := by
      simp only [Finset.sum_const, Finset.card_range, nsmul_eq_mul, mul_one, Nat.cast_ofNat]
      ring
    rw [hsum, ← hone]
    simp only [Finset.mul_sum, ← Finset.sum_add_distrib]
    exact Finset.sum_lt_sum_of_nonempty hneH (fun j hj =>
      Finset.sum_lt_sum_of_nonempty hneW (fun i hi =>
        Finset.sum_lt_sum_of_nonempty hne3 (fun c hc => (hb j hj i hi c hc).2)))

/-- In a downsampling step from a level of width `w ≥ 1` and height `h ≥ 1`, not both 1,
to the level of width `max(1, ⌊w / 2⌋)` and height `max(1, ⌊h / 2⌋)`, every byte offset read
in the previous level is below `3 w h`. -/
theorem readOffsets_lt (prevLevel currLevel : MipLevel)
    (hw : 1 ≤ prevLevel.width) (hh : 1 ≤ prevLevel.height)
    (hnot : ¬ (prevLevel.width = 1 ∧ prevLevel.height = 1))
    (hcw : currLevel.width = max 1 (prevLevel.width / 2))
    (hch : currLevel.height = max 1 (prevLevel.height / 2)) :
    ∀ o ∈ readOffsets prevLevel currLevel, o < 3 * prevLevel.width * prevLevel.height := by
  intro o ho
  unfold readOffsets at ho
  simp only at ho
  split_ifs at ho with h1 h2
  · have hh1 : prevLevel.height = 1 := by omega
    simp only [List.mem_flatMap, List.mem_range, uint8_to_float_offsets, List.mem_cons,
      List.mem_singleton, List.not_mem_nil, or_false] at ho
    obtain ⟨i, hi, ii, hii, ho⟩ := ho
    have ht := tap_lt_extent prevLevel.width i ii (by omega) hii
    rw [hh1]
    omega
  · have hw1 : prevLevel.width = 1 := by omega
    simp only [List.mem_flatMap, List.mem_range, uint8_to_float_offsets, List.mem_cons,
      List.mem_singleton, List.not_mem_nil, or_false] at ho
    obtain ⟨j, hj, jj, hjj, ho⟩ := ho
    have ht := tap_lt_extent prevLevel.height j jj (by omega) hjj
    rw [hw1] at ho ⊢
    omega
  · simp only [List.mem_flatMap, List.mem_range, uint8_to_float_offsets, List.mem_cons,
      List.mem_singleton, List.not_mem_nil, or_false] at ho
    obtain ⟨j, hj, i, hi, jj, hjj, ii, hii, ho⟩ := ho
    have htw := tap_lt_extent prevLevel.width i ii (by omega) hii
    have hth := tap_lt_extent prevLevel.height j jj (by omega) hjj
    have b0 := texel_offset_lt prevLevel.width prevLevel.height (2 * j + jj) (2 * i + ii) 0
      hth htw (by norm_num)
    have b1 := texel_offset_lt prevLevel.width prevLevel.height (2 * j + jj) (2 * i + ii) 1
      hth htw (by norm_num)
    have b2 := texel_offset_lt prevLevel.width prevLevel.height (2 * j + jj) (2 * i + ii) 2
      hth htw (by norm_num)
    rcases ho with ho | ho | ho <;> rw [ho] <;> omega

/-! ## Claims -/

/-- C1. `Texture::lerp` does not compute `a + f * (b - a)`: at the factor 1 between black
and white it returns black, the start colour, where the stated blend is white. -/
theorem lerp_one_black_white_is_black :
    lerp 1 ⟨0, 0, 0⟩ ⟨1, 1, 1⟩ = ⟨0, 0, 0⟩ ∧
      specLerp 1 ⟨0, 0, 0⟩ ⟨1, 1, 1⟩ = ⟨1, 1, 1⟩ ∧
      lerp 1 ⟨0, 0, 0⟩ ⟨1, 1, 1⟩ ≠ specLerp 1 ⟨0, 0, 0⟩ ⟨1, 1, 1⟩ := by
  refine ⟨by simp [lerp], by simp [specLerp], ?_⟩
  simp [lerp, specLerp]

/-- C2. `sample_bilinear` does not return the weighted blend of the four texels: on the 2x1
level black, white at uv = (1/4, 0), where s = 1/2 and t = 0, it returns black, the base
texel, where the stated blend is the mid grey. -/
theorem sample_bilinear_quarter_is_base :
    sample_bilinear [blackWhite] ⟨1 / 4, 0⟩ 0 = some ⟨0, 0, 0⟩ ∧
      specBilinear blackWhite ⟨1 / 4, 0⟩ = ⟨1 / 2, 1 / 2, 1 / 2⟩ := by
  have hf : Int.fract (1 / 2 : ℚ) = 1 / 2 := by
    rw [Int.fract_eq_iff]
    exact ⟨by norm_num, by norm_num, 0, by norm_num⟩
  have h3 : Int.toNat 3 = 3 := rfl
  constructor
  · simp [sample_bilinear, levelAt, lerp_eq_start, bilinear_texels, bilinear_base, blackWhite,
      MipLevel.get_texel, clamp]
    norm_num
  · simp [specBilinear, blackWhite, MipLevel.get_texel, clamp, hf, h3]
    norm_num [hf, h3]

/-- C3. `sample_trilinear` does not blend two levels: on the store `whiteBlackPyramid` at
uv = (0, 0) and LOD 1/2 (fractional part 1/2, level 1 exists) it returns the bilinear sample
of level 0, white, where the stated blend of the two bilinear samples is 191/255. -/
theorem sample_trilinear_half_is_level_zero :
    sample_bilinear whiteBlackPyramid ⟨0, 0⟩ 0 = some ⟨1, 1, 1⟩ ∧
      sample_bilinear whiteBlackPyramid ⟨0, 0⟩ 1 = some ⟨127 / 255, 127 / 255, 127 / 255⟩ ∧
      sample_trilinear whiteBlackPyramid ⟨0, 0⟩ (1 / 2) = some ⟨1, 1, 1⟩ ∧
      specLerp (1 / 2) ⟨1, 1, 1⟩ ⟨127 / 255, 127 / 255, 127 / 255⟩
        = ⟨191 / 255, 191 / 255, 191 / 255⟩ := by
  have h0 : sample_bilinear whiteBlackPyramid ⟨0, 0⟩ 0 = some ⟨1, 1, 1⟩ := by
    simp [sample_bilinear, levelAt, lerp_eq_start, bilinear_texels, bilinear_base,
      whiteBlackPyramid, MipLevel.get_texel, clamp]
  have h1 : sample_bilinear whiteBlackPyramid ⟨0, 0⟩ 1
      = some ⟨127 / 255, 127 / 255, 127 / 255⟩ := by
    simp [sample_bilinear, levelAt, lerp_eq_start, bilinear_texels, bilinear_base,
      whiteBlackPyramid, MipLevel.get_texel, clamp]
  refine ⟨h0, h1, ?_, ?_⟩
  · rw [sample_trilinear_eq_bilinear_floor]
    have hfl : ⌊(1 / 2 : ℚ)⌋ = 0 := by norm_num
    rw [hfl]
    simpa using h0
  · simp [specLerp]
    norm_num

/-- C4. At an integer LOD `k` that is an existing level, `sample_trilinear` returns a colour,
the one `sample_bilinear` returns at level `k`, and the levels of the store other than `k`
(level `k + 1` among them) have no part in it. -/
theorem sample_trilinear_integer_level (mipmap : List MipLevel) (uv : Vector2D) (k : ℤ)
    (l : MipLevel) (hk : levelAt mipmap k = some l) :
    sample_trilinear mipmap uv (k : ℚ) = sample_bilinear mipmap uv (k : ℚ) ∧
      (sample_trilinear mipmap uv (k : ℚ)).isSome = true ∧
      ∀ other : List MipLevel, levelAt other k = some l →
        sample_trilinear other uv (k : ℚ) = sample_trilinear mipmap uv (k : ℚ) := by
  have hb : ∀ m : List MipLevel, levelAt m k = some l →
      sample_trilinear m uv (k : ℚ) =
        some (l.get_texel (bilinear_base l.width uv.x) (bilinear_base l.height uv.y)) := by
    intro m hm
    rw [sample_trilinear_eq_bilinear_floor, Int.floor_intCast]
    exact sample_bilinear_eq_base m uv (k : ℚ) l (by rw [Int.floor_intCast]; exact hm)
  refine ⟨?_, ?_, ?_⟩
  · rw [sample_trilinear_eq_bilinear_floor, Int.floor_intCast]
  · rw [hb mipmap hk]
    rfl
  · intro other ho
    rw [hb other ho, hb mipmap hk]

/-- Witness of C4: level 1 of `whiteBlackPyramid`. -/
theorem sample_trilinear_integer_level_witness :
    levelAt whiteBlackPyramid 1 = some ⟨1, 1, [127, 127, 127]⟩ ∧
      sample_trilinear whiteBlackPyramid ⟨0, 0⟩ ((1 : ℤ) : ℚ)
        = sample_bilinear whiteBlackPyramid ⟨0, 0⟩ ((1 : ℤ) : ℚ) :=
  ⟨by simp [levelAt, whiteBlackPyramid],
    (sample_trilinear_integer_level whiteBlackPyramid ⟨0, 0⟩ 1 ⟨1, 1, [127, 127, 127]⟩
      (by simp [levelAt, whiteBlackPyramid])).1⟩

/-- C6. With level mode LINEAR_LEVEL `get_level` is not bounded by `numLevels - 1`: the
upper bound of its clamp is `max_size()` of the vector. On the 2x2 texture with its two
levels and the wide footprint, where `max(|dx|, |dy|) = 4`, it returns 2, which is above
`numLevels - 1 = 1` and is the index of no level, so that sampling there reads outside the
store. -/
theorem get_level_linear_above_store (rt : Runtime) (fine coarse : List ℕ)
    (h0 : rt.sqrt 0 = 0) (h16 : rt.sqrt 16 = 4) (hlog : rt.log2 4 = some 2)
    (hmax : 2 ≤ rt.max_size) :
    get_level rt (twoLevelTexture fine coarse)
        (wideFootprint PixelSampleMethod.P_LINEAR LevelSampleMethod.L_LINEAR) = 2 ∧
      (((twoLevelTexture fine coarse).mipmap.length : ℚ) - 1
        < get_level rt (twoLevelTexture fine coarse)
            (wideFootprint PixelSampleMethod.P_LINEAR LevelSampleMethod.L_LINEAR)) ∧
      sample rt (twoLevelTexture fine coarse)
        (wideFootprint PixelSampleMethod.P_LINEAR LevelSampleMethod.L_LINEAR) = none := by
  have hg : get_level rt (twoLevelTexture fine coarse)
      (wideFootprint PixelSampleMethod.P_LINEAR LevelSampleMethod.L_LINEAR) = 2 := by
    have hc := clampedlevel_wideFootprint rt fine coarse PixelSampleMethod.P_LINEAR
      LevelSampleMethod.L_LINEAR h0 h16 hlog hmax
    unfold get_level
    rw [hc]
    simp [wideFootprint]
  refine ⟨hg, ?_, ?_⟩
  · rw [hg]
    norm_num [twoLevelTexture]
  · have hs : sample rt (twoLevelTexture fine coarse)
        (wideFootprint PixelSampleMethod.P_LINEAR LevelSampleMethod.L_LINEAR)
          = sample_trilinear (twoLevelTexture fine coarse).mipmap ⟨0, 0⟩ 2 := by
      unfold sample
      rw [hg]
      rfl
    have hfl : ⌊(2 : ℚ)⌋ = 2 := by norm_num
    rw [hs, sample_trilinear_eq_bilinear_floor, hfl]
    simp [sample_bilinear, levelAt, twoLevelTexture]

/-- Witness of C6: the evaluation runtime. -/
theorem get_level_linear_above_store_witness :
    get_level dyadicRuntime (twoLevelTexture [] [])
        (wideFootprint PixelSampleMethod.P_LINEAR LevelSampleMethod.L_LINEAR) = 2 :=
  (get_level_linear_above_store dyadicRuntime [] [] dyadicRuntime_sqrt_zero
    dyadicRuntime_sqrt_sixteen dyadicRuntime_log2_four (by simp [dyadicRuntime])).1

/-- C8. With a zero footprint (`uv_dx = uv_dy = uv`) `get_level` returns exactly 0 in every
level mode, for every base width and height and every uv, the library having `sqrt 0 = 0`
and `log2 0 = -inf`. -/
theorem get_level_zero_footprint (rt : Runtime) (t : Texture) (sp : SampleParams)
    (hsqrt : rt.sqrt 0 = 0) (hlog : rt.log2 0 = none)
    (hdx : sp.p_dx_uv = sp.p_uv) (hdy : sp.p_dy_uv = sp.p_uv) :
    get_level rt t sp = 0 := by
  have hc := clampedlevel_zero_footprint rt t sp hsqrt hlog hdx hdy
  simp only [get_level, hc]
  split_ifs with h1 h2 h3
  · rfl
  · rfl
  · norm_num at h3
  · rfl

/-- Witness of C8: a 1024x768 texture queried at uv = (1/3, 2/3) in NEAREST_LEVEL mode. -/
theorem get_level_zero_footprint_witness :
    get_level dyadicRuntime ⟨1024, 768, []⟩
      ⟨⟨1 / 3, 2 / 3⟩, ⟨1 / 3, 2 / 3⟩, ⟨1 / 3, 2 / 3⟩, PixelSampleMethod.P_NEAREST,
        LevelSampleMethod.L_NEAREST⟩ = 0 :=
  get_level_zero_footprint dyadicRuntime _ _ dyadicRuntime_sqrt_zero dyadicRuntime_log2_zero
    rfl rfl

/-- C9. `generate_mips` does not fill the coarsest level it adds: on the store of one 2x1
level of two white texels, `generate_mips(0)` adds one 1x1 level and leaves its buffer at
the zero bytes of the allocation, where the downsampling step applied to the 2x1 level gives
the white texel. -/
theorem generate_mips_leaves_coarsest_zero :
    generate_mips 14 whitePair 0 =
        { cerr := []
          mipmap := some [⟨2, 1, [255, 255, 255, 255, 255, 255]⟩, ⟨1, 1, [0, 0, 0]⟩] } ∧
      downsample ⟨2, 1, [255, 255, 255, 255, 255, 255]⟩ ⟨1, 1, [0, 0, 0]⟩ =
        ⟨1, 1, [255, 255, 255]⟩ := by
  constructor
  · simp [generate_mips, whitePair, levelAt, log_two_two, resize, allocateLevels, createMips]
  · simp [downsample, axisSupport, axisDecimal, List.range_succ, accumulate, axisWeight,
      uint8_to_float, float_to_uint8]
    norm_num [channel_to_uint8_one]

/-- C10. When level `s` exists with width `w ≥ 1` and height `h ≥ 1` and
`n = min(⌊log2(max(w, h))⌋, kMaxMipLevels - s - 1)` is not negative, `generate_mips(s)`
leaves a store of exactly `s + n + 1` levels, at most `kMaxMipLevels`, in which the level
`s + i`, for `i` from 1 to `n`, has width `max(1, ⌊w / 2^i⌋)`, height `max(1, ⌊h / 2^i⌋)` and
a buffer of length `3 * width * height`; and a 5x3 level 0 gives a level 1 of width 2 and
height 1. -/
theorem generate_mips_levels (kMaxMipLevels : ℕ) (mipmap : List MipLevel) (s : ℕ)
    (base : MipLevel) (hbase : mipmap[s]? = some base)
    (hw : 1 ≤ base.width) (hh : 1 ≤ base.height)
    (hn : 0 ≤ min (Nat.log 2 (max base.width base.height) : ℤ)
      ((kMaxMipLevels : ℤ) - s - 1)) :
    (∃ store, (generate_mips kMaxMipLevels mipmap s).mipmap = some store ∧
      (store.length : ℤ) = s + min (Nat.log 2 (max base.width base.height) : ℤ)
        ((kMaxMipLevels : ℤ) - s - 1) + 1 ∧
      store.length ≤ kMaxMipLevels ∧
      ∀ i : ℕ, 1 ≤ i → (i : ℤ) ≤ min (Nat.log 2 (max base.width base.height) : ℤ)
          ((kMaxMipLevels : ℤ) - s - 1) →
        ∃ l, store[s + i]? = some l ∧ l.width = max 1 (base.width / 2 ^ i) ∧
          l.height = max 1 (base.height / 2 ^ i) ∧
          l.texels.length = 3 * l.width * l.height) ∧
      (∀ (texels : List ℕ) (k : ℕ), 2 ≤ k →
        ∃ store l, (generate_mips k [⟨5, 3, texels⟩] 0).mipmap = some store ∧
          store[1]? = some l ∧ l.width = 2 ∧ l.height = 1) := by
  constructor
  · obtain ⟨n, hnn⟩ := Int.eq_ofNat_of_zero_le hn
    obtain ⟨store, hstore, hlen, hlev⟩ :=
      generate_mips_store kMaxMipLevels mipmap s base hbase hw hh n hnn.symm
    refine ⟨store, hstore, ?_, ?_, ?_⟩
    · rw [hnn, hlen]
      push_cast
      ring
    · have : (n : ℤ) ≤ (kMaxMipLevels : ℤ) - s - 1 := by
        rw [← hnn]
        exact min_le_right _ _
      omega
    · intro i hi1 hin
      rw [hnn] at hin
      have h := hlev i hi1 (by exact_mod_cast hin)
      cases hl : store[s + i]? with
      | none => rw [hl] at h; simp at h
      | some l =>
        rw [hl] at h
        simp only [Option.map_some', levelShape, Option.some.injEq, Prod.mk.injEq] at h
        refine ⟨l, rfl, h.1, h.2.1, ?_⟩
        rw [h.2.2, h.1, h.2.1]
  · intro texels k hk
    have hlog : Nat.log 2 (max 5 3) = 2 := log_two_five
    obtain ⟨store, hstore, _, hlev⟩ :=
      generate_mips_store k [⟨5, 3, texels⟩] 0 ⟨5, 3, texels⟩ rfl (by norm_num) (by norm_num)
        (min 2 (k - 1)) (by simp only [hlog]; push_cast; omega)
    have h := hlev 1 le_rfl (by omega)
    cases hl : store[0 + 1]? with
    | none => rw [hl] at h; simp at h
    | some l =>
      rw [hl] at h
      simp only [Option.map_some', levelShape, Option.some.injEq, Prod.mk.injEq] at h
      refine ⟨store, l, hstore, by simpa using hl, ?_, ?_⟩
      · rw [h.1]
        norm_num
      · rw [h.2.1]
        norm_num

/-- Witness of C10: the store of one 5x3 level, with `kMaxMipLevels = 14`: two levels are
added, and level 1 is 2x1. -/
theorem generate_mips_levels_witness :
    ∃ store, (generate_mips 14 fiveByThree 0).mipmap = some store ∧
      store.length ≤ 14 ∧
      ∃ l, store[0 + 1]? = some l ∧ l.width = max 1 (5 / 2 ^ 1) ∧
        l.height = max 1 (3 / 2 ^ 1) ∧ l.texels.length = 3 * l.width * l.height := by
  have hlog : Nat.log 2 (max 5 3) = 2 := log_two_five
  obtain ⟨store, hstore, _, hle, hlev⟩ :=
    (generate_mips_levels 14 fiveByThree 0 ⟨5, 3, List.replicate 45 0⟩ rfl (by norm_num)
      (by norm_num) (by simp only [hlog]; norm_num)).1
  exact ⟨store, hstore, hle, hlev 1 le_rfl (by simp only [hlog]; norm_num)⟩

/-- C11. When level `s` exists with width and height at least 1 and the level cap does not
bind (`⌊log2(max(w, h))⌋ ≤ kMaxMipLevels - s - 1`), the coarsest level of the store that
`generate_mips(s)` leaves, its last one, has width 1 and height 1. -/
theorem generate_mips_coarsest_one_by_one (kMaxMipLevels : ℕ) (mipmap : List MipLevel)
    (s : ℕ) (base : MipLevel) (hbase : mipmap[s]? = some base)
    (hw : 1 ≤ base.width) (hh : 1 ≤ base.height)
    (hcap : (Nat.log 2 (max base.width base.height) : ℤ) ≤ (kMaxMipLevels : ℤ) - s - 1) :
    ∃ store l, (generate_mips kMaxMipLevels mipmap s).mipmap = some store ∧
      store.getLast? = some l ∧ l.width = 1 ∧ l.height = 1 := by
  obtain ⟨store, hstore, hlen, hlev⟩ :=
    generate_mips_store kMaxMipLevels mipmap s base hbase hw hh
      (Nat.log 2 (max base.width base.height)) (min_eq_left hcap).symm
  have hlast : store.getLast? = store[s + Nat.log 2 (max base.width base.height)]? := by
    rw [List.getLast?_eq_getElem?, hlen]
    rfl
  have hlt := Nat.lt_pow_succ_log_self (by norm_num : 1 < 2) (max base.width base.height)
  rcases Nat.eq_zero_or_pos (Nat.log 2 (max base.width base.height)) with h0 | hpos
  · obtain ⟨store2, hstore2, hb⟩ :=
      generate_mips_below kMaxMipLevels mipmap s base hbase (by omega) (by omega)
    have hst : store2 = store := by
      rw [hstore] at hstore2
      exact (Option.some.inj hstore2).symm
    subst hst
    rw [h0] at hlt
    refine ⟨store2, base, hstore, ?_, ?_, ?_⟩
    · rw [hlast, h0, Nat.add_zero, (hb s le_rfl).2, hbase]
    · have : base.width ≤ max base.width base.height := le_max_left _ _
      norm_num at hlt
      omega
    · have : base.height ≤ max base.width base.height := le_max_right _ _
      norm_num at hlt
      omega
  · have h := hlev _ hpos le_rfl
    have hwd : base.width / 2 ^ Nat.log 2 (max base.width base.height) < 2 := by
      apply Nat.div_lt_of_lt_mul
      have : base.width ≤ max base.width base.height := le_max_left _ _
      rw [Nat.pow_succ, Nat.mul_comm] at hlt
      omega
    have hhd : base.height / 2 ^ Nat.log 2 (max base.width base.height) < 2 := by
      apply Nat.div_lt_of_lt_mul
      have : base.height ≤ max base.width base.height := le_max_right _ _
      rw [Nat.pow_succ, Nat.mul_comm] at hlt
      omega
    cases hl : store[s + Nat.log 2 (max base.width base.height)]? with
    | none => rw [hl] at h; simp at h
    | some l =>
      rw [hl] at h
      simp only [Option.map_some', levelShape, Option.some.injEq, Prod.mk.injEq] at h
      refine ⟨store, l, hstore, by rw [hlast, hl], ?_, ?_⟩
      · rw [h.1]
        omega
      · rw [h.2.1]
        omega

/-- Witness of C11: the store of one 5x3 level with `kMaxMipLevels = 14`. -/
theorem generate_mips_coarsest_one_by_one_witness :
    ∃ store l, (generate_mips 14 fiveByThree 0).mipmap = some store ∧
      store.getLast? = some l ∧ l.width = 1 ∧ l.height = 1 := by
  have hlog : Nat.log 2 (max 5 3) = 2 := log_two_five
  exact generate_mips_coarsest_one_by_one 14 fiveByThree 0 ⟨5, 3, List.replicate 45 0⟩ rfl
    (by norm_num) (by norm_num) (by simp only [hlog]; norm_num)

/-- C13, as the code has it: when `startLevel` is an existing level below `kMaxMipLevels`
whose width and height are at least 1 and whose buffer holds three bytes per texel,
`generate_mips(startLevel)` leaves every level with index at most `startLevel` present and
exactly as it was; the downsampling step from level `startLevel`, when one is made, reads
inside the buffer of that level. -/
theorem generate_mips_keeps_finer_levels (kMaxMipLevels : ℕ) (mipmap : List MipLevel)
    (s : ℕ) (base : MipLevel) (hbase : mipmap[s]? = some base)
    (hw : 1 ≤ base.width) (hh : 1 ≤ base.height)
    (hlen : base.texels.length = 3 * base.width * base.height) (hs : s < kMaxMipLevels) :
    (∃ store, (generate_mips kMaxMipLevels mipmap s).mipmap = some store ∧
      ∀ idx, idx ≤ s → idx < store.length ∧ store[idx]? = mipmap[idx]?) ∧
      ∀ currLevel : MipLevel, ¬ (base.width = 1 ∧ base.height = 1) →
        currLevel.width = max 1 (base.width / 2) →
        currLevel.height = max 1 (base.height / 2) →
        ∀ o ∈ readOffsets base currLevel, o < base.texels.length := by
  refine ⟨generate_mips_below kMaxMipLevels mipmap s base hbase (by omega) hs, ?_⟩
  intro currLevel hnot hcw hch
  rw [hlen]
  exact readOffsets_lt base currLevel hw hh hnot hcw hch

/-- Witness of C13 as amended: level 0 of the store of one 5x3 level. -/
theorem generate_mips_keeps_finer_levels_witness :
    ∃ store, (generate_mips 14 fiveByThree 0).mipmap = some store ∧
      ∀ idx, idx ≤ 0 → idx < store.length ∧ store[idx]? = fiveByThree[idx]? :=
  (generate_mips_keeps_finer_levels 14 fiveByThree 0 ⟨5, 3, List.replicate 45 0⟩ rfl
    (by norm_num) (by norm_num) (by simp) (by norm_num)).1

/-- C13 fails as stated, in three ways. With `kMaxMipLevels = 14` and a store of fifteen 1x1
levels, `generate_mips(14)` starts from an existing level and leaves a store of fourteen
levels, in which level 14 is no longer present. On the existing level 0 of extents 0x0 the
call converts `log2f(0)` to `int` and leaves no defined store. On the existing level 0 of
extents 0x5 with an empty buffer, level 1 is made by the downsampling step from level 0, and
that step reads the byte offset 0 of the empty buffer. -/
theorem generate_mips_drops_start_level :
    (fifteenLevels[14]? = some ⟨1, 1, [0, 0, 0]⟩ ∧
      (generate_mips 14 fifteenLevels 14).mipmap = some (List.replicate 14 ⟨1, 1, [0, 0, 0]⟩) ∧
      (List.replicate 14 (⟨1, 1, [0, 0, 0]⟩ : MipLevel))[14]? = none) ∧
      (generate_mips 14 [⟨0, 0, []⟩] 0).mipmap = none ∧
      ((generate_mips 14 [⟨0, 5, []⟩] 0).mipmap =
          some [⟨0, 5, []⟩, downsample ⟨0, 5, []⟩ ⟨1, 2, [0, 0, 0, 0, 0, 0]⟩, ⟨1, 1, [0, 0, 0]⟩] ∧
        0 ∈ readOffsets ⟨0, 5, []⟩ ⟨1, 2, [0, 0, 0, 0, 0, 0]⟩ ∧
        ¬ (0 < (⟨0, 5, []⟩ : MipLevel).texels.length)) := by
  have h14 : fifteenLevels[14]? = some ⟨1, 1, [0, 0, 0]⟩ := by
    simp [fifteenLevels, List.getElem?_replicate]
  refine ⟨⟨h14, ?_, by simp⟩, by simp [generate_mips, levelAt], ?_, ?_, by simp⟩
  · have h := generate_mips_eq 14 fifteenLevels 14 ⟨1, 1, [0, 0, 0]⟩ h14 (by norm_num)
    have hz : ((14 : ℕ) : ℤ)
        + min ((Nat.log 2 (max 1 1) : ℕ) : ℤ) (((14 : ℕ) : ℤ) - (14 : ℕ) - 1) + 1 = 14 := by
      norm_num
    have hm : min ((Nat.log 2 (max 1 1) : ℕ) : ℤ) (((14 : ℕ) : ℤ) - (14 : ℕ) - 1) = -1 := by
      norm_num
    simp only [hz, hm] at h
    rw [show generate_mips 14 fifteenLevels 14 = _ from h]
    simp [allocateLevels, createMips, resize, fifteenLevels]
  · simp [generate_mips, levelAt, log_two_five, resize, allocateLevels, createMips]
  · simp only [readOffsets, axisSupport, uint8_to_float_offsets, List.mem_flatMap,
      List.mem_range]
    norm_num
    exact ⟨⟨0, by norm_num⟩, ⟨0, by norm_num⟩⟩

/-- C14. `generate_mips` with a start level that does not exist does not return after
reporting the error: on the store of one 2x1 level, `generate_mips(1)` writes the message
and goes on to read `mipmap[1]`, outside the vector, so that no store is defined after the
call. -/
theorem generate_mips_invalid_start_reads_on :
    generate_mips 14 whitePair 1 = { cerr := ["Invalid start level"], mipmap := none } ∧
      (generate_mips 14 whitePair 1).mipmap ≠ some whitePair := by
  have h : generate_mips 14 whitePair 1 = { cerr := ["Invalid start level"], mipmap := none } := by
    simp [generate_mips, whitePair, levelAt]
  refine ⟨h, ?_⟩
  rw [h]
  simp

/-- C15. With a filter mode that is neither NEAREST nor LINEAR, `sample` returns the colour
(1, 0, 0) for every runtime, texture, uv, derivative hints and level mode; the texture has
no part in the result, which is the same on the texture without any level. -/
theorem sample_other_mode_is_sentinel (rt : Runtime) (t : Texture) (sp : SampleParams)
    (hn : sp.psm ≠ PixelSampleMethod.P_NEAREST) (hl : sp.psm ≠ PixelSampleMethod.P_LINEAR) :
    sample rt t sp = some ⟨1, 0, 0⟩ ∧ sample rt ⟨0, 0, []⟩ sp = sample rt t sp := by
  have h : ∀ t2 : Texture, sample rt t2 sp = some ⟨1, 0, 0⟩ := by
    intro t2
    unfold sample
    cases hp : sp.psm with
    | P_NEAREST => exact absurd hp hn
    | P_LINEAR => exact absurd hp hl
    | P_OTHER => rfl
  exact ⟨h t, by rw [h, h]⟩

/-- Witness of C15: the 2x2 texture queried with the wide footprint. -/
theorem sample_other_mode_is_sentinel_witness :
    sample dyadicRuntime (twoLevelTexture [] [])
      (wideFootprint PixelSampleMethod.P_OTHER LevelSampleMethod.L_LINEAR) = some ⟨1, 0, 0⟩ :=
  (sample_other_mode_is_sentinel dyadicRuntime (twoLevelTexture [] [])
    (wideFootprint PixelSampleMethod.P_OTHER LevelSampleMethod.L_LINEAR)
    (by simp [wideFootprint]) (by simp [wideFootprint])).1

/-- C16. `sample_bilinear` passes a coordinate outside the level to texel access: on the 2x2
level `checker` at uv = (1, 1) the base texel is (2, 2), because lines 90-96 lower it to the
extent and not to the extent minus 1, so that `u00` is fetched at (2, 2) and `u01` at
(2, 1), while the other two pairs are inside `[0, 1] x [0, 1]`. -/
theorem sample_bilinear_base_outside_level :
    bilinear_coords checker ⟨1, 1⟩ = ((2, 2), (2, 1), (1, 2), (1, 1)) ∧
      ¬ ((bilinear_coords checker ⟨1, 1⟩).1.1 ≤ (checker.width : ℤ) - 1) ∧
      ¬ ((bilinear_coords checker ⟨1, 1⟩).1.2 ≤ (checker.height : ℤ) - 1) := by
  have h : bilinear_coords checker ⟨1, 1⟩ = ((2, 2), (2, 1), (1, 2), (1, 1)) := by
    simp [bilinear_coords, bilinear_base, checker, clamp]
  refine ⟨h, ?_, ?_⟩
  · rw [h]
    simp [checker]
  · rw [h]
    simp [checker]

/-- C18. In a downsampling step from an extent `p` to the extent `max(1, ⌊p / 2⌋)` and
for every output index `i` below the new extent, the weights applied over the support of the
axis sum to exactly 1; the support has two weights, both 1/2, when `p` is even and three
when `p` is odd. -/
theorem axis_weights_sum_to_one (p i : ℕ) (hi : i < max 1 (p / 2)) :
    (∑ k ∈ Finset.range (axisSupport p),
        axisWeight (1 / (2 + axisDecimal p (max 1 (p / 2)))) (axisDecimal p (max 1 (p / 2))) i k)
        = 1 ∧
      (p % 2 = 0 → axisSupport p = 2 ∧
        axisWeight (1 / (2 + axisDecimal p (max 1 (p / 2)))) (axisDecimal p (max 1 (p / 2))) i 0
          = 1 / 2 ∧
        axisWeight (1 / (2 + axisDecimal p (max 1 (p / 2)))) (axisDecimal p (max 1 (p / 2))) i 1
          = 1 / 2) ∧
      (p % 2 = 1 → axisSupport p = 3) := by
  rcases Nat.mod_two_eq_zero_or_one p with h0 | h1
  · have hne : ¬ p % 2 = 1 := by omega
    have hS : axisSupport p = 2 := by simp [axisSupport, hne]
    have hD : axisDecimal p (max 1 (p / 2)) = 0 := by simp [axisDecimal, hne]
    rw [hS, hD]
    refine ⟨?_, fun _ => ⟨rfl, by norm_num [axisWeight], by norm_num [axisWeight]⟩,
      fun h => absurd h hne⟩
    simp only [Finset.sum_range_succ, Finset.sum_range_zero, axisWeight]
    norm_num
  · have hc : (0 : ℚ) < ((max 1 (p / 2) : ℕ) : ℚ) := by
      have : 0 < max 1 (p / 2) := by omega
      exact_mod_cast this
    have hS : axisSupport p = 3 := by simp [axisSupport, h1]
    have hD : axisDecimal p (max 1 (p / 2)) = 1 / ((max 1 (p / 2) : ℕ) : ℚ) := by
      simp [axisDecimal, h1]
    rw [hS, hD]
    refine ⟨?_, fun h => by omega, fun _ => rfl⟩
    simp only [Finset.sum_range_succ, Finset.sum_range_zero, axisWeight]
    field_simp
    ring

/-- Witness of C18: the output index 1 of a step from extent 5 to extent 2. -/
theorem axis_weights_sum_to_one_witness :
    (∑ k ∈ Finset.range (axisSupport 5),
        axisWeight (1 / (2 + axisDecimal 5 (max 1 (5 / 2)))) (axisDecimal 5 (max 1 (5 / 2))) 1 k)
        = 1 :=
  (axis_weights_sum_to_one 5 1 (by norm_num)).1

/-- C20. In a downsampling step from a previous level of width `w ≥ 1` and height `h ≥ 1`,
not both 1, with a buffer of length `3 w h`, to the level of width `max(1, ⌊w / 2⌋)` and
height `max(1, ⌊h / 2⌋)`, every byte offset read in the previous level is below `3 w h` and
every byte offset written in the new level is below three times its width times its
height. -/
theorem downsample_offsets_in_bounds (prevLevel currLevel : MipLevel)
    (hw : 1 ≤ prevLevel.width) (hh : 1 ≤ prevLevel.height)
    (hnot : ¬ (prevLevel.width = 1 ∧ prevLevel.height = 1))
    (hcw : currLevel.width = max 1 (prevLevel.width / 2))
    (hch : currLevel.height = max 1 (prevLevel.height / 2))
    (hlen : prevLevel.texels.length = 3 * prevLevel.width * prevLevel.height) :
    (∀ o ∈ readOffsets prevLevel currLevel, o < prevLevel.texels.length) ∧
      (∀ o ∈ writeOffsets prevLevel currLevel, o < 3 * currLevel.width * currLevel.height) := by
  rw [hlen]
  constructor
  · exact readOffsets_lt prevLevel currLevel hw hh hnot hcw hch
  · intro o ho
    unfold writeOffsets at ho
    simp only at ho
    split_ifs at ho with h1 h2
    · have hh1 : currLevel.height = 1 := by omega
      simp only [List.mem_flatMap, List.mem_range, float_to_uint8_offsets, List.mem_cons,
        List.mem_singleton, List.not_mem_nil, or_false] at ho
      obtain ⟨i, hi, ho⟩ := ho
      rw [hh1]
      omega
    · have hw1 : currLevel.width = 1 := by omega
      simp only [List.mem_flatMap, List.mem_range, float_to_uint8_offsets, List.mem_cons,
        List.mem_singleton, List.not_mem_nil, or_false] at ho
      obtain ⟨j, hj, ho⟩ := ho
      rw [hw1] at ho ⊢
      omega
    · simp only [List.mem_flatMap, List.mem_range, float_to_uint8_offsets, List.mem_cons,
        List.mem_singleton, List.not_mem_nil, or_false] at ho
      obtain ⟨j, hj, i, hi, ho⟩ := ho
      have b0 := texel_offset_lt currLevel.width currLevel.height j i 0 hj hi (by norm_num)
      have b1 := texel_offset_lt currLevel.width currLevel.height j i 1 hj hi (by norm_num)
      have b2 := texel_offset_lt currLevel.width currLevel.height j i 2 hj hi (by norm_num)
      rcases ho with ho | ho | ho <;> rw [ho] <;> omega

/-- Witness of C20: the step from a 5x3 level to the 2x1 level. -/
theorem downsample_offsets_in_bounds_witness :
    (∀ o ∈ readOffsets fiveByThreeStep.1 fiveByThreeStep.2, o < fiveByThreeStep.1.texels.length) ∧
      (∀ o ∈ writeOffsets fiveByThreeStep.1 fiveByThreeStep.2,
        o < 3 * fiveByThreeStep.2.width * fiveByThreeStep.2.height) :=
  downsample_offsets_in_bounds fiveByThreeStep.1 fiveByThreeStep.2 (by simp [fiveByThreeStep])
    (by simp [fiveByThreeStep]) (by simp [fiveByThreeStep]) (by simp [fiveByThreeStep])
    (by simp [fiveByThreeStep]) (by simp [fiveByThreeStep])

/-- C12. In a downsampling step from a previous level of width `w ≥ 1` and height `h ≥ 1`,
not both 1, holding `3 w h` bytes, to the level of width `max(1, ⌊w / 2⌋)` and height
`max(1, ⌊h / 2⌋)`, in exact arithmetic: the mean of the weighted sums over all output texels
and channels is the mean channel value of the previous level, and the mean of the bytes
stored in the new level is at most the mean of the bytes of the previous level and lower by
less than 1, whether `w` and `h` are odd or even. -/
theorem downsample_preserves_mean (prevLevel currLevel : MipLevel)
    (hw : 1 ≤ prevLevel.width) (hh : 1 ≤ prevLevel.height)
    (hnot : ¬ (prevLevel.width = 1 ∧ prevLevel.height = 1))
    (hcw : currLevel.width = max 1 (prevLevel.width / 2))
    (hch : currLevel.height = max 1 (prevLevel.height / 2))
    (hplen : prevLevel.texels.length = 3 * prevLevel.width * prevLevel.height)
    (hclen : currLevel.texels.length = 3 * currLevel.width * currLevel.height)
    (hbyte : ∀ b ∈ prevLevel.texels, b ≤ 255) :
    (∑ j ∈ Finset.range currLevel.height, ∑ i ∈ Finset.range currLevel.width,
        ∑ c ∈ Finset.range 3, channel (filteredTexel prevLevel currLevel j i) c)
          / (3 * (currLevel.width : ℚ) * (currLevel.height : ℚ))
        = levelMean prevLevel / 255 ∧
      levelMean (downsample prevLevel currLevel) ≤ levelMean prevLevel ∧
      levelMean prevLevel - 1 < levelMean (downsample prevLevel currLevel) := by
  have hW : 1 ≤ currLevel.width := by omega
  have hH : 1 ≤ currLevel.height := by omega
  have hWq : (0 : ℚ) < (currLevel.width : ℚ) := by exact_mod_cast hW
  have hHq : (0 : ℚ) < (currLevel.height : ℚ) := by exact_mod_cast hH
  have hwq : (0 : ℚ) < (prevLevel.width : ℚ) := by exact_mod_cast hw
  have hhq : (0 : ℚ) < (prevLevel.height : ℚ) := by exact_mod_cast hh
  have hlen : (downsample prevLevel currLevel).texels.length
      = 3 * currLevel.width * currLevel.height := by
    have := congrArg (fun s => s.2.2) (downsample_shape prevLevel currLevel)
    simp only [levelShape] at this
    rw [this, hclen]
  have htot := filteredTexel_total prevLevel currLevel hw hh hnot hcw hch hplen
  obtain ⟨hle, hlt⟩ := downsample_sum_bounds prevLevel currLevel hw hh hcw hch hclen hbyte
  have hmp : levelMean prevLevel = ((prevLevel.texels.sum : ℕ) : ℚ)
      / (3 * (prevLevel.width : ℚ) * (prevLevel.height : ℚ)) := by
    unfold levelMean
    rw [hplen]
    push_cast
    rfl
  have hmn : levelMean (downsample prevLevel currLevel)
      = (((downsample prevLevel currLevel).texels.sum : ℕ) : ℚ)
        / (3 * (currLevel.width : ℚ) * (currLevel.height : ℚ)) := by
    unfold levelMean
    rw [hlen]
    push_cast
    rfl
  have hden : (0 : ℚ) < 3 * (currLevel.width : ℚ) * (currLevel.height : ℚ) := by positivity
  have hkey : 255 * ∑ j ∈ Finset.range currLevel.height, ∑ i ∈ Finset.range currLevel.width,
      ∑ c ∈ Finset.range 3, channel (filteredTexel prevLevel currLevel j i) c
        = levelMean prevLevel * (3 * (currLevel.width : ℚ) * (currLevel.height : ℚ)) := by
    rw [htot, hmp]
    field_simp
    ring
  refine ⟨?_, ?_, ?_⟩
  · rw [div_eq_iff hden.ne']
    linarith
  · rw [hmn, div_le_iff₀ hden]
    linarith
  · rw [hmn, lt_div_iff₀ hden]
    linarith

/-- Witness of C12: the step from the 3x1 level red, green, blue to the 1x1 level. -/
theorem downsample_preserves_mean_witness :
    levelMean (downsample threeByOneStep.1 threeByOneStep.2) ≤ levelMean threeByOneStep.1 ∧
      levelMean threeByOneStep.1 - 1 < levelMean (downsample threeByOneStep.1 threeByOneStep.2) :=
  (downsample_preserves_mean threeByOneStep.1 threeByOneStep.2 (by simp [threeByOneStep])
    (by simp [threeByOneStep]) (by simp [threeByOneStep]) (by simp [threeByOneStep])
    (by simp [threeByOneStep]) (by simp [threeByOneStep]) (by simp [threeByOneStep])
    (by simp [threeByOneStep])).2

end CGL
